import Mathlib

/-!
Verification of the core state-reconciliation logic of the Chess-Vision-Pro
application: position repair (`forceValidFen`), move inference (`detectMove`),
the analysis coordinator (`StockfishEngine` and the result-acceptance filter),
the skill/anomaly estimator, and the manual-override window.

Strings from the TypeScript source are embedded as lists of characters
(`Str := List Char`); JavaScript string operations (`trim`, `split(/\s+/)`,
`split(' ')`, `indexOf`, `parseInt`, template-literal assembly) are translated
into functions on `Str`.
-/

abbrev Str : Type := List Char

def str (s : String) : Str := s.data

def isWs (c : Char) : Bool := c.isWhitespace

/-- JavaScript `s.trim()`: remove leading and trailing whitespace. -/
def jsTrim (s : Str) : Str := ((s.dropWhile isWs).reverse.dropWhile isWs).reverse

/-- Split on runs of whitespace, with no empty pieces (no trimming first). -/
def splitNT (s : Str) : List Str := (s.splitOnP isWs).filter (fun p => p ≠ [])

/-- JavaScript `s.trim().split(/\s+/)` on a string: split the trimmed string on
runs of whitespace. -/
def splitWs (s : Str) : List Str := splitNT (jsTrim s)

/- ===================== visionService.ts : forceValidFen ===================== -/

def START_FEN : Str := str "rnbqkbnr/pppppppp/8/8/8/8/PPPPPPPP/RNBQKBNR w KQkq - 0 1"

def START_BOARD : Str := str "rnbqkbnr/pppppppp/8/8/8/8/PPPPPPPP/RNBQKBNR"

/-- `forceValidFen` from `src/services/visionService.ts`: normalize a raw FEN
string, substituting the canonical starting position when the raw string is
empty or its placement field does not hold exactly one king per side, and
filling missing suffix fields with documented defaults otherwise. -/
def forceValidFen (raw : Str) : Str :=
  if (jsTrim raw).length = 0 then START_FEN else
  let parts := splitWs raw
  let board := parts.getD 0 START_BOARD
  let whiteKings := board.count 'K'
  let blackKings := board.count 'k'
  if whiteKings ≠ 1 ∨ blackKings ≠ 1 then START_FEN else
  let turn := parts.getD 1 (str "w")
  let castling := parts.getD 2 (str "KQkq")
  let ep := parts.getD 3 (str "-")
  let half := parts.getD 4 (str "0")
  let full := parts.getD 5 (str "1")
  board ++ ' ' :: (turn ++ ' ' :: (castling ++ ' ' :: (ep ++ ' ' :: (half ++ ' ' :: full))))

/- ===================== engineService.ts ===================== -/

/-- A single candidate line as produced by `StockfishEngine.parseInfoLine`. -/
structure EngineMove where
  fromSq : Str
  toSq : Str
  san : Str
  evaluation : ℚ
  confidence : ℤ
deriving DecidableEq

/-- `EngineResult` from `src/services/engineService.ts`; `nodes` is `Option ℤ`
with `none` standing for a JavaScript `NaN`. -/
structure EngineResult where
  moves : List EngineMove
  nodes : Option ℤ
  depth : ℤ
  fen : Str
deriving DecidableEq

/-- Private state of `StockfishEngine`. `currentMoves` is the insertion-ordered
association list behind the JavaScript `Map`; a `none` key stands for a `NaN`
rank (JavaScript `Map` keys use SameValueZero, under which `NaN` equals `NaN`,
matching `none = none`). -/
structure EngineState where
  currentMoves : List (Option ℤ × EngineMove)
  lastNodes : Option ℤ
  lastDepth : ℤ
  activeFen : Str
  hasCallback : Bool
deriving DecidableEq

def initialEngine : EngineState :=
  { currentMoves := [], lastNodes := some 0, lastDepth := 0, activeFen := [],
    hasCallback := false }

/-- `extractValue` from `engineService.ts`: split the line on single spaces,
locate the key, return the following token. `List.indexOf` returns the length
when the key is absent, so the single bounds test covers the JS `-1` check. -/
def extractValue (line key : Str) : Option Str :=
  let parts := line.splitOn ' '
  let index := parts.indexOf key
  if index + 1 < parts.length then some (parts.getD (index + 1) []) else none

def digitsToNat (l : List Char) : ℕ :=
  l.foldl (fun acc c => acc * 10 + (c.toNat - ('0').toNat)) 0

def jsParseIntAux (r : Str) (sign : ℤ) : Option ℤ :=
  let digits := r.takeWhile Char.isDigit
  if digits = [] then none else some (sign * (digitsToNat digits : ℤ))

/-- JavaScript `parseInt` in base 10: skip leading whitespace, optional sign,
longest digit prefix; `none` stands for `NaN`. -/
def jsParseInt (s : Str) : Option ℤ :=
  match s.dropWhile isWs with
  | '-' :: r => jsParseIntAux r (-1)
  | '+' :: r => jsParseIntAux r 1
  | r => jsParseIntAux r 1

/-- `Map.set`: replace the entry with the matching key in place, else append. -/
def mapSet (m : List (Option ℤ × EngineMove)) (k : Option ℤ) (v : EngineMove) :
    List (Option ℤ × EngineMove) :=
  match m with
  | [] => [(k, v)]
  | p :: rest => if p.1 = k then (k, v) :: rest else p :: mapSet rest k v

/-- `Map.get`: the value stored at key `k`, if any. -/
def mapLookup (m : List (Option ℤ × EngineMove)) (k : Option ℤ) : Option EngineMove :=
  match m with
  | [] => none
  | p :: rest => if p.1 = k then some p.2 else mapLookup rest k

/-- Numeric value used by the JS sort comparator `([a],[b]) => a - b`; a `NaN`
key (modelled `none`) compares as equal to everything there, rendered here as 0. -/
def rankKey (k : Option ℤ) : ℤ := k.getD 0

/-- `Array.from(map.entries()).sort(([a],[b]) => a-b).map(([_,m]) => m)`:
the stored lines sorted by rank ascending, ranks dropped. -/
def sortedMoves (m : List (Option ℤ × EngineMove)) : List EngineMove :=
  (m.mergeSort (fun p q => decide (rankKey p.1 ≤ rankKey q.1))).map (fun p => p.2)

/-- The accepted branch of `StockfishEngine.parseInfoLine` (a `pv` token
present, meaningful depth): build the `EngineMove`, store it under its
`multipv` rank, update the diagnostics, and emit the full sorted result to the
registered callback if there is one. `conf` is the floating-point confidence
formula `Math.round(100/(1+Math.exp(-(e*100)/150)))`, which has no exact
rational embedding and is kept as a parameter. The JS `NaN` produced by
`parseInt` on a non-numeric `cp` token is modelled as evaluation 0. -/
def parseAccept (conf : ℚ → ℤ) (st : EngineState) (line : Str) (pvs : Str)
    (d : ℤ) : EngineState × Option EngineResult :=
  let nodes := jsParseInt ((extractValue line (str "nodes")).getD (str "0"))
  let multiPv := jsParseInt ((extractValue line (str "multipv")).getD (str "1"))
  let cpValue := extractValue line (str "cp")
  let mateValue := extractValue line (str "mate")
  let uciMove := (pvs.splitOn ' ').getD 0 []
  let mateTruthy : Bool := match mateValue with | some v => !v.isEmpty | none => false
  let cpTruthy : Bool := match cpValue with | some v => !v.isEmpty | none => false
  let evaluation : ℚ :=
    if mateTruthy then
      match jsParseInt (mateValue.getD []) with
      | some n => if n > 0 then 99 else -99
      | none => -99
    else if cpTruthy then
      match jsParseInt (cpValue.getD []) with
      | some n => (n : ℚ) / 100
      | none => 0
    else 0
  let move : EngineMove :=
    { fromSq := (uciMove.take 2).map Char.toUpper
      toSq := ((uciMove.drop 2).take 2).map Char.toUpper
      san := uciMove
      evaluation := evaluation
      confidence := conf evaluation }
  let newMoves := mapSet st.currentMoves multiPv move
  ({ st with currentMoves := newMoves, lastNodes := nodes, lastDepth := d },
   if st.hasCallback then
     some { moves := sortedMoves newMoves, nodes := nodes, depth := d,
            fen := st.activeFen }
   else none)

/-- `StockfishEngine.parseInfoLine`: results are reported only once the parsed
`pv` is a nonempty token and the parsed depth is at least 6 (`parseInt` turning
the token into `NaN` — `none` here — fails the comparison). -/
def parseInfoLine (conf : ℚ → ℤ) (st : EngineState) (line : Str) :
    EngineState × Option EngineResult :=
  match extractValue line (str "pv"),
        jsParseInt ((extractValue line (str "depth")).getD (str "0")) with
  | some pvs, some d =>
    if pvs ≠ [] ∧ d ≥ 6 then parseAccept conf st line pvs d else (st, none)
  | _, _ => (st, none)

/-- `StockfishEngine.analyze`: dedupe an unchanged FEN, otherwise reset the
per-position state, register the new callback and (externally) restart the
search. -/
def analyze (st : EngineState) (fen : Str) : EngineState :=
  if st.activeFen = fen then st
  else { st with activeFen := fen, currentMoves := [], hasCallback := true }

/-- `StockfishEngine.stop`. -/
def stopEngine (st : EngineState) : EngineState := { st with activeFen := [] }

/- ============ analysis coordinator (App useEffect + engine) ============ -/

/-- Combined coordinator state: the engine plus the App-side authoritative FEN
and published analysis result (`currentFen`, `engineResult`, `isEngineThinking`
in `App.tsx`). -/
structure CoordState where
  eng : EngineState
  currentFen : Str
  engineResult : Option EngineResult
  isEngineThinking : Bool
deriving DecidableEq

/-- The result callback registered by the `App.tsx` analysis effect: accept and
publish a streamed result only when its stored fen equals the authoritative
fen; otherwise drop it with no change. -/
def onEngineResult (cs : CoordState) (res : EngineResult) : CoordState :=
  if res.fen = cs.currentFen then
    { cs with engineResult := some res, isEngineThinking := false }
  else cs

inductive CoordEvent where
  | request (fen : Str)
  | infoLine (line : Str)

/-- One step of the coordinator: a `request` is the authoritative position
changing, which re-runs the analysis effect (`engine.analyze` with a callback
comparing against the new fen); an `infoLine` is a streamed engine message,
parsed and — if it yields a result — delivered to the callback. -/
def coordStep (conf : ℚ → ℤ) (cs : CoordState) (ev : CoordEvent) : CoordState :=
  match ev with
  | .request fen =>
      { cs with currentFen := fen, isEngineThinking := true, eng := analyze cs.eng fen }
  | .infoLine line =>
      let pr := parseInfoLine conf cs.eng line
      let cs' := { cs with eng := pr.1 }
      match pr.2 with
      | some res => onEngineResult cs' res
      | none => cs'

/- ===================== skill / anomaly estimator ===================== -/

structure MoveRef where
  fromSq : Str
  toSq : Str
deriving DecidableEq

/-- The ELO-estimator slice of the `App.tsx` state (assault variant):
`opponentMoveAccuracy` ref, `estimatedElo`, `eloStability`. -/
structure EstState where
  opponentMoveAccuracy : List ℚ
  estimatedElo : ℤ
  eloStability : ℕ
deriving DecidableEq

def initialEst : EstState :=
  { opponentMoveAccuracy := [], estimatedElo := 800, eloStability := 0 }

/-- The estimator update block of `handleFrameCapture`: guarded on the move
being the opponent's, an inferred move existing, and an engine prediction being
available; pushes a 100/0 sample, recomputes the rating as
`Math.round(800 + avg*22)` (JS `Math.round` is `⌊x + 1/2⌋`, as is Mathlib's
`round`), and the stability as `Math.min(100, n*10)`. -/
def updateEstimator (wasOpponentTurn : Bool)
    (moveForHighlight previousEngineBestMove : Option MoveRef) (st : EstState) :
    EstState :=
  match wasOpponentTurn, moveForHighlight, previousEngineBestMove with
  | true, some mv, some pred =>
    let isTopEngine := pred.fromSq = mv.fromSq ∧ pred.toSq = mv.toSq
    let acc := st.opponentMoveAccuracy ++ [if isTopEngine then (100 : ℚ) else 0]
    let avgAcc := acc.sum / (acc.length : ℚ)
    { opponentMoveAccuracy := acc
      estimatedElo := round ((800 : ℚ) + avgAcc * 22)
      eloStability := min 100 (acc.length * 10) }
  | _, _, _ => st

/-- The per-sample accuracy value: 100 on an exact match with the engine top
move, 0 otherwise. -/
def accOf (o : MoveRef × MoveRef) : ℚ :=
  if o.2.fromSq = o.1.fromSq ∧ o.2.toSq = o.1.toSq then 100 else 0

/-- One estimator observation of an opponent move `o.1` against the engine
prediction `o.2`, with the guards of the update block satisfied. -/
def estStep (st : EstState) (o : MoveRef × MoveRef) : EstState :=
  updateEstimator true (some o.1) (some o.2) st

/-- Modelled from the spec: the SuspicionScore accumulator of §4.4 is absent
from src/ (only the ELO estimator was implemented); its parameters are the
fixed increment, the strictly smaller fixed decrement, and the ceiling. -/
structure SuspicionParams where
  inc : ℤ
  dec : ℤ
  ceil : ℤ

/-- Modelled from the spec: `observe(engineTopMove, observedMove)` for the
SuspicionScore — skipped entirely when no engine top move is available; on an
exact match (origin and destination) increase by `inc` bounded above by `ceil`;
otherwise decrease by `dec` bounded below at zero. -/
def observeSuspicion (p : SuspicionParams) (engineTopMove : Option MoveRef)
    (observedMove : MoveRef) (score : ℤ) : ℤ :=
  match engineTopMove with
  | none => score
  | some t =>
    if t.fromSq = observedMove.fromSq ∧ t.toSq = observedMove.toSq then
      min p.ceil (score + p.inc)
    else
      max 0 (score - p.dec)

/- ============ manual-override window (App.tsx, handleManualMove) ============ -/

/-- The local-override slice of the App state together with the one browser
timer it owns: the `manualOverrideActive` flag, the pending `setTimeout` (id
and absolute deadline) held through the `manualPauseTimer` ref, and a fresh-id
counter. A cleared or replaced timer is removed, matching `clearTimeout`. -/
structure OverrideState where
  manualOverrideActive : Bool
  manualPauseTimer : Option (ℕ × ℕ)
  nextTimerId : ℕ
deriving DecidableEq

def initialOverride : OverrideState :=
  { manualOverrideActive := false, manualPauseTimer := none, nextTimerId := 0 }

/-- The window-start tail of `handleManualMove` on a successful local move at
time `now`: `setManualOverrideActive(true)`, `clearTimeout` of any pending
timer (it is dropped, not kept), and a fresh `setTimeout(.., 8000)`. -/
def startOverride (now : ℕ) (st : OverrideState) : OverrideState :=
  { manualOverrideActive := true
    manualPauseTimer := some (st.nextTimerId, now + 8000)
    nextTimerId := st.nextTimerId + 1 }

/-- Firing of the browser timer with id `i`: it has an effect only while it is
the pending (never cleared, never replaced) timer; its callback is
`setManualOverrideActive(false)`. -/
def fireTimer (i : ℕ) (st : OverrideState) : OverrideState :=
  match st.manualPauseTimer with
  | some (j, _) =>
      if j = i then
        { st with manualOverrideActive := false, manualPauseTimer := none }
      else st
  | none => st

/-- The entry guard of `handleFrameCapture`: a frame is processed by the rest
of the handler (`process`) only when no capture is in flight, auto-sync is
enabled and the local-override window is not active. -/
def frameStep {α : Type} (process : α → α)
    (visionInFlight isAutoSyncEnabled manualOverrideActive : Bool) (app : α) : α :=
  if visionInFlight || !isAutoSyncEnabled || manualOverrideActive then app
  else process app

/- ===================== chess.js : board and position model ===================== -/

inductive PieceColor where
  | white
  | black
deriving DecidableEq

def PieceColor.other : PieceColor → PieceColor
  | .white => .black
  | .black => .white

inductive PieceKind where
  | pawn | knight | bishop | rook | queen | king
deriving DecidableEq

structure Piece where
  pcolor : PieceColor
  kind : PieceKind
deriving DecidableEq

/-- Squares are indices 0..63: file = sq % 8 (0 = file a), rank = sq / 8
(0 = rank 1); squares at index 64 and beyond are permanently empty. -/
abbrev Board := ℕ → Option Piece

def BoardOK (b : Board) : Prop := ∀ i, 64 ≤ i → b i = none

structure Position where
  board : Board
  turn : PieceColor
  castleWK : Bool
  castleWQ : Bool
  castleBK : Bool
  castleBQ : Bool
  epSquare : Option ℕ
  halfmove : ℕ
  fullmove : ℕ

inductive MFlag where
  | normal | pawnTwo | enPassant | castleK | castleQ
deriving DecidableEq

/-- A verbose move as produced by the rules engine (`moves({verbose: true})`):
origin, destination, moving piece, optional promotion, special-move flag. -/
structure CMove where
  fromSq : ℕ
  toSq : ℕ
  piece : PieceKind
  promo : Option PieceKind
  flag : MFlag
deriving DecidableEq

def fileOf (sq : ℕ) : ℕ := sq % 8

def rankOf (sq : ℕ) : ℕ := sq / 8

/-- The square `dr` ranks and `df` files away, if it stays on the board. -/
def offSq (sq : ℕ) (dr df : ℤ) : Option ℕ :=
  let r : ℤ := (rankOf sq : ℤ) + dr
  let f : ℤ := (fileOf sq : ℤ) + df
  if 0 ≤ r ∧ r < 8 ∧ 0 ≤ f ∧ f < 8 then some (r * 8 + f).toNat else none

def knightDirs : List (ℤ × ℤ) := [(2,1),(2,-1),(-2,1),(-2,-1),(1,2),(1,-2),(-1,2),(-1,-2)]

def kingDirs : List (ℤ × ℤ) := [(1,0),(1,1),(0,1),(-1,1),(-1,0),(-1,-1),(0,-1),(1,-1)]

def rookDirs : List (ℤ × ℤ) := [(1,0),(-1,0),(0,1),(0,-1)]

def bishopDirs : List (ℤ × ℤ) := [(1,1),(1,-1),(-1,1),(-1,-1)]

/-- Walk from `sq` in direction `d`, collecting squares until the first
occupied one (inclusive) or the edge of the board; `fuel` bounds the walk. -/
def ray (b : Board) (sq : ℕ) (d : ℤ × ℤ) : ℕ → List ℕ
  | 0 => []
  | fuel + 1 =>
    match offSq sq d.1 d.2 with
    | none => []
    | some t =>
      match b t with
      | some _ => [t]
      | none => t :: ray b t d fuel

def pieceAttacks (b : Board) (src target : ℕ) (pc : Piece) : Bool :=
  match pc.kind with
  | .pawn =>
    let dr : ℤ := match pc.pcolor with | .white => 1 | .black => -1
    offSq src dr 1 == some target || offSq src dr (-1) == some target
  | .knight => knightDirs.any fun d => offSq src d.1 d.2 == some target
  | .king => kingDirs.any fun d => offSq src d.1 d.2 == some target
  | .rook => rookDirs.any fun d => (ray b src d 7).contains target
  | .bishop => bishopDirs.any fun d => (ray b src d 7).contains target
  | .queen => (rookDirs ++ bishopDirs).any fun d => (ray b src d 7).contains target

def attacked (b : Board) (byColor : PieceColor) (target : ℕ) : Bool :=
  (List.range 64).any fun i =>
    match b i with
    | some pc => pc.pcolor == byColor && pieceAttacks b i target pc
    | none => false

def kingSquare (b : Board) (c : PieceColor) : Option ℕ :=
  (List.range 64).find? fun i => b i == some ⟨c, .king⟩

def kingHome : PieceColor → ℕ
  | .white => 4
  | .black => 60

def rookHomeK : PieceColor → ℕ
  | .white => 7
  | .black => 63

def rookHomeQ : PieceColor → ℕ
  | .white => 0
  | .black => 56

/-- The square of the pawn captured en passant, given the capture target. -/
def epCapSq : PieceColor → ℕ → ℕ
  | .white, t => t - 8
  | .black, t => t + 8

def promoted (turn : PieceColor) (m : CMove) : Piece :=
  ⟨turn, match m.promo with | some k => k | none => m.piece⟩

/-- The board after making a move (`make_move` board updates). -/
def applyBoard (b : Board) (turn : PieceColor) (m : CMove) : Board :=
  match m.flag with
  | .normal | .pawnTwo =>
      Function.update (Function.update b m.fromSq none) m.toSq (some (promoted turn m))
  | .enPassant =>
      Function.update (Function.update (Function.update b m.fromSq none)
        m.toSq (some ⟨turn, .pawn⟩)) (epCapSq turn m.toSq) none
  | .castleK =>
      Function.update (Function.update (Function.update (Function.update b
        (kingHome turn) none) (rookHomeK turn) none)
        (kingHome turn + 2) (some ⟨turn, .king⟩)) (kingHome turn + 1) (some ⟨turn, .rook⟩)
  | .castleQ =>
      Function.update (Function.update (Function.update (Function.update b
        (kingHome turn) none) (rookHomeQ turn) none)
        (kingHome turn - 2) (some ⟨turn, .king⟩)) (kingHome turn - 1) (some ⟨turn, .rook⟩)

/-- `make_move`: the position after a move, with turn flip, castling-rights and
en-passant bookkeeping and the move counters. -/
def applyMove (P : Position) (m : CMove) : Position :=
  { board := applyBoard P.board P.turn m
    turn := P.turn.other
    castleWK := P.castleWK &&
      !((P.turn == .white && (m.piece == .king || m.fromSq == 7)) ||
        (P.turn == .black && m.toSq == 7))
    castleWQ := P.castleWQ &&
      !((P.turn == .white && (m.piece == .king || m.fromSq == 0)) ||
        (P.turn == .black && m.toSq == 0))
    castleBK := P.castleBK &&
      !((P.turn == .black && (m.piece == .king || m.fromSq == 63)) ||
        (P.turn == .white && m.toSq == 63))
    castleBQ := P.castleBQ &&
      !((P.turn == .black && (m.piece == .king || m.fromSq == 56)) ||
        (P.turn == .white && m.toSq == 56))
    epSquare := if m.flag == .pawnTwo then
        some (match P.turn with | .white => m.fromSq + 8 | .black => m.fromSq - 8)
      else none
    halfmove := if m.piece == .pawn || (P.board m.toSq).isSome || m.flag == .enPassant
      then 0 else P.halfmove + 1
    fullmove := if P.turn == .black then P.fullmove + 1 else P.fullmove }

def promoKinds : List PieceKind := [.queen, .rook, .bishop, .knight]

def lastRank : PieceColor → ℕ
  | .white => 7
  | .black => 0

def startRank : PieceColor → ℕ
  | .white => 1
  | .black => 6

def pawnDir : PieceColor → ℤ
  | .white => 1
  | .black => -1

def pawnPushes (P : Position) (i : ℕ) : List CMove :=
  match offSq i (pawnDir P.turn) 0 with
  | some t =>
    if P.board t = none then
      (if rankOf t = lastRank P.turn then
        promoKinds.map fun k => ⟨i, t, .pawn, some k, .normal⟩
      else [⟨i, t, .pawn, none, .normal⟩]) ++
      (if rankOf i = startRank P.turn then
        match offSq i (2 * pawnDir P.turn) 0 with
        | some t2 => if P.board t2 = none then [⟨i, t2, .pawn, none, .pawnTwo⟩] else []
        | none => []
      else [])
    else []
  | none => []

/-- Pawn captures including en passant. The en-passant branch also requires
the capture-target square to be empty and the captured enemy pawn to be
present: the rules engine relies on this as an invariant of its `ep_square`
field, made explicit here so that it holds for every well-formed position. -/
def pawnCaptures (P : Position) (i : ℕ) : List CMove :=
  ([-1, 1] : List ℤ).flatMap fun df =>
    match offSq i (pawnDir P.turn) df with
    | some t =>
      (match P.board t with
       | some q =>
         if q.pcolor = P.turn.other then
           if rankOf t = lastRank P.turn then
             promoKinds.map fun k => ⟨i, t, .pawn, some k, .normal⟩
           else [⟨i, t, .pawn, none, .normal⟩]
         else []
       | none => []) ++
      (if P.epSquare = some t ∧ P.board t = none ∧
          P.board (epCapSq P.turn t) = some ⟨P.turn.other, .pawn⟩ then
        [⟨i, t, .pawn, none, .enPassant⟩]
      else [])
    | none => []

def stepMoves (P : Position) (i : ℕ) (dirs : List (ℤ × ℤ)) (k : PieceKind) :
    List CMove :=
  dirs.flatMap fun d =>
    match offSq i d.1 d.2 with
    | some t =>
      match P.board t with
      | none => [⟨i, t, k, none, .normal⟩]
      | some q => if q.pcolor = P.turn.other then [⟨i, t, k, none, .normal⟩] else []
    | none => []

def slideMoves (P : Position) (i : ℕ) (dirs : List (ℤ × ℤ)) (k : PieceKind) :
    List CMove :=
  dirs.flatMap fun d =>
    (ray P.board i d 7).flatMap fun t =>
      match P.board t with
      | none => [⟨i, t, k, none, .normal⟩]
      | some q => if q.pcolor = P.turn.other then [⟨i, t, k, none, .normal⟩] else []

/-- Castle generation: rights, king and rook on their home squares (the rules
engine keeps this as an invariant of its rights flags, made explicit here),
empty path, king and crossing square not attacked; the arrival square is
checked by the legality filter. -/
def castleMoves (P : Position) (i : ℕ) : List CMove :=
  let c := P.turn
  let kRight := match c with | .white => P.castleWK | .black => P.castleBK
  let qRight := match c with | .white => P.castleWQ | .black => P.castleBQ
  (if kRight = true ∧ i = kingHome c ∧
      P.board (kingHome c) = some ⟨c, .king⟩ ∧
      P.board (rookHomeK c) = some ⟨c, .rook⟩ ∧
      P.board (kingHome c + 1) = none ∧ P.board (kingHome c + 2) = none ∧
      attacked P.board c.other (kingHome c) = false ∧
      attacked P.board c.other (kingHome c + 1) = false then
    [⟨kingHome c, kingHome c + 2, .king, none, .castleK⟩]
  else []) ++
  (if qRight = true ∧ i = kingHome c ∧
      P.board (kingHome c) = some ⟨c, .king⟩ ∧
      P.board (rookHomeQ c) = some ⟨c, .rook⟩ ∧
      P.board (kingHome c - 1) = none ∧ P.board (kingHome c - 2) = none ∧
      P.board (kingHome c - 3) = none ∧
      attacked P.board c.other (kingHome c) = false ∧
      attacked P.board c.other (kingHome c - 1) = false then
    [⟨kingHome c, kingHome c - 2, .king, none, .castleQ⟩]
  else [])

def pieceMoves (P : Position) (i : ℕ) : List CMove :=
  match P.board i with
  | some pc =>
    if pc.pcolor = P.turn then
      match pc.kind with
      | .pawn => pawnPushes P i ++ pawnCaptures P i
      | .knight => stepMoves P i knightDirs .knight
      | .bishop => slideMoves P i bishopDirs .bishop
      | .rook => slideMoves P i rookDirs .rook
      | .queen => slideMoves P i (rookDirs ++ bishopDirs) .queen
      | .king => stepMoves P i kingDirs .king ++ castleMoves P i
    else []
  | none => []

def pseudoMoves (P : Position) : List CMove :=
  (List.range 64).flatMap (pieceMoves P)

def inCheckOf (P : Position) (c : PieceColor) : Bool :=
  match kingSquare P.board c with
  | some k => attacked P.board c.other k
  | none => false

/-- `moves({verbose: true})`: pseudo-legal moves filtered by own-king safety,
in the deterministic generation order (squares a1..h8, piece pattern order). -/
def legalMoves (P : Position) : List CMove :=
  (pseudoMoves P).filter fun m => !(inCheckOf (applyMove P m) P.turn)

/- ===================== chess.js : FEN encoding and parsing ===================== -/

def pieceChar (pc : Piece) : Char :=
  match pc.pcolor, pc.kind with
  | .white, .pawn => 'P' | .white, .knight => 'N' | .white, .bishop => 'B'
  | .white, .rook => 'R' | .white, .queen => 'Q' | .white, .king => 'K'
  | .black, .pawn => 'p' | .black, .knight => 'n' | .black, .bishop => 'b'
  | .black, .rook => 'r' | .black, .queen => 'q' | .black, .king => 'k'

def charPiece (c : Char) : Option Piece :=
  match c with
  | 'P' => some ⟨.white, .pawn⟩ | 'N' => some ⟨.white, .knight⟩
  | 'B' => some ⟨.white, .bishop⟩ | 'R' => some ⟨.white, .rook⟩
  | 'Q' => some ⟨.white, .queen⟩ | 'K' => some ⟨.white, .king⟩
  | 'p' => some ⟨.black, .pawn⟩ | 'n' => some ⟨.black, .knight⟩
  | 'b' => some ⟨.black, .bishop⟩ | 'r' => some ⟨.black, .rook⟩
  | 'q' => some ⟨.black, .queen⟩ | 'k' => some ⟨.black, .king⟩
  | _ => none

def digitChar (n : ℕ) : Char := Char.ofNat ('0'.toNat + n)

/-- Run-length encoding of one rank, emitting the count of empties pending. -/
def encodeRank : List (Option Piece) → ℕ → Str
  | [], 0 => []
  | [], n + 1 => [digitChar (n + 1)]
  | none :: rest, n => encodeRank rest (n + 1)
  | some pc :: rest, 0 => pieceChar pc :: encodeRank rest 0
  | some pc :: rest, n + 1 => digitChar (n + 1) :: pieceChar pc :: encodeRank rest 0

def rankCells (b : Board) (r : ℕ) : List (Option Piece) :=
  (List.range 8).map fun f => b (r * 8 + f)

/-- The placement field of `fen()`: ranks 8 down to 1, separated by slashes. -/
def fenBoard (b : Board) : Str :=
  List.intercalate ['/'] (((List.range 8).reverse).map fun r => encodeRank (rankCells b r) 0)

/-- Decode one rank: pieces and digit runs, rejecting consecutive digits and a
cell count other than 8 (mirroring `validate_fen`). -/
def decodeRank : Str → Bool → List (Option Piece) → Option (List (Option Piece))
  | [], _, acc => if acc.length = 8 then some acc else none
  | c :: rest, prevDigit, acc =>
    if '1' ≤ c ∧ c ≤ '8' then
      if prevDigit then none
      else decodeRank rest true (acc ++ List.replicate (c.toNat - ('0').toNat) none)
    else
      match charPiece c with
      | some pc => decodeRank rest false (acc ++ [some pc])
      | none => none

def cellsBoard (cellRanks : List (List (Option Piece))) : Board :=
  fun sq =>
    if sq < 64 then (cellRanks.getD (7 - rankOf sq) []).getD (fileOf sq) none
    else none

def parseBoard (s : Str) : Option Board :=
  match (s.splitOn '/').mapM (fun rs => decodeRank rs false []) with
  | some cellRanks =>
      if cellRanks.length = 8 then some (cellsBoard cellRanks) else none
  | none => none

def parseTurn : Str → Option PieceColor
  | ['w'] => some .white
  | ['b'] => some .black
  | _ => none

def parseCastle (s : Str) : Option (Bool × Bool × Bool × Bool) :=
  if s.all (fun c => c == 'K' || c == 'Q' || c == 'k' || c == 'q' || c == '-') then
    some (s.contains 'K', s.contains 'Q', s.contains 'k', s.contains 'q')
  else none

def parseEp (s : Str) (turn : PieceColor) : Option (Option ℕ) :=
  match s with
  | ['-'] => some none
  | [f, r] =>
    if 'a' ≤ f ∧ f ≤ 'h' ∧
        ((r = '3' ∧ turn = .black) ∨ (r = '6' ∧ turn = .white)) then
      some (some ((r.toNat - ('1').toNat) * 8 + (f.toNat - ('a').toNat)))
    else none
  | _ => none

def parseNum (s : Str) : Option ℕ :=
  if s ≠ [] ∧ s.all Char.isDigit then some (digitsToNat s) else none

/-- `new Chess(fen)` / `load(fen)`: tokenize into the six FEN fields and
validate each; `none` models the constructor throwing. -/
def parseFen (s : Str) : Option Position :=
  match splitWs s with
  | [pl, t, c, ep, h, f] =>
    match parseBoard pl, parseTurn t, parseCastle c with
    | some b, some turn, some cr =>
      match parseEp ep turn, parseNum h, parseNum f with
      | some eps, some hm, some fm =>
        some { board := b, turn := turn, castleWK := cr.1, castleWQ := cr.2.1,
               castleBK := cr.2.2.1, castleBQ := cr.2.2.2, epSquare := eps,
               halfmove := hm, fullmove := fm }
      | _, _, _ => none
    | _, _, _ => none
  | _ => none

def colorStr : PieceColor → Str
  | .white => ['w']
  | .black => ['b']

def castleFieldStr (P : Position) : Str :=
  let s := (if P.castleWK then ['K'] else []) ++ (if P.castleWQ then ['Q'] else []) ++
    (if P.castleBK then ['k'] else []) ++ (if P.castleBQ then ['q'] else [])
  if s = [] then ['-'] else s

def squareName (sq : ℕ) : Str :=
  [Char.ofNat (('a').toNat + fileOf sq), Char.ofNat (('1').toNat + rankOf sq)]

def epFieldStr (P : Position) : Str :=
  match P.epSquare with
  | some e => squareName e
  | none => ['-']

def natStr (n : ℕ) : Str := (Nat.repr n).data

/-- `fen()`: the full six-field FEN of a position. -/
def fenPos (P : Position) : Str :=
  fenBoard P.board ++ ' ' :: (colorStr P.turn ++ ' ' :: (castleFieldStr P ++ ' ' ::
    (epFieldStr P ++ ' ' :: (natStr P.halfmove ++ ' ' :: natStr P.fullmove))))

/-- The occupancy facts every move produced by the generator satisfies; they
determine a move (up to origin and destination) from the board it produces. -/
def MSpec (P : Position) (m : CMove) : Prop :=
  m.fromSq < 64 ∧ m.toSq < 64 ∧ m.fromSq ≠ m.toSq ∧
  (∃ pk, P.board m.fromSq = some ⟨P.turn, pk⟩) ∧
  (match m.flag with
   | .normal | .pawnTwo =>
      P.board m.toSq = none ∨ ∃ q, P.board m.toSq = some q ∧ q.pcolor = P.turn.other
   | .enPassant =>
      P.board m.toSq = none ∧
      epCapSq P.turn m.toSq < 64 ∧
      epCapSq P.turn m.toSq ≠ m.fromSq ∧ epCapSq P.turn m.toSq ≠ m.toSq ∧
      P.board (epCapSq P.turn m.toSq) = some ⟨P.turn.other, .pawn⟩
   | .castleK =>
      m.fromSq = kingHome P.turn ∧ m.toSq = kingHome P.turn + 2 ∧
      P.board (kingHome P.turn) = some ⟨P.turn, .king⟩ ∧
      P.board (rookHomeK P.turn) = some ⟨P.turn, .rook⟩ ∧
      P.board (kingHome P.turn + 1) = none ∧ P.board (kingHome P.turn + 2) = none
   | .castleQ =>
      m.fromSq = kingHome P.turn ∧ m.toSq = kingHome P.turn - 2 ∧
      P.board (kingHome P.turn) = some ⟨P.turn, .king⟩ ∧
      P.board (rookHomeQ P.turn) = some ⟨P.turn, .rook⟩ ∧
      P.board (kingHome P.turn - 1) = none ∧ P.board (kingHome P.turn - 2) = none ∧
      P.board (kingHome P.turn - 3) = none)

/- ===================== App.tsx : detectMove and handleManualMove ===================== -/

/-- `detectMove` from `App.tsx`: parse the previous FEN, return null at equal
placement fields, otherwise replay every legal move and return the origin and
destination of the first whose resulting placement field matches. -/
def detectMove (oldFen newFen : Str) : Option MoveRef :=
  match parseFen oldFen with
  | none => none
  | some tempGame =>
    let oldPos := (oldFen.splitOn ' ').getD 0 []
    let newPos := (newFen.splitOn ' ').getD 0 []
    if oldPos = newPos then none
    else
      match (legalMoves tempGame).find? (fun mv =>
          fenBoard (applyMove tempGame mv).board == newPos) with
      | some mv => some ⟨squareName mv.fromSq, squareName mv.toSq⟩
      | none => none

/-- `game.move({ from, to, promotion })`: the first legal move with the given
origin and destination whose promotion — when it is a promotion — matches. -/
def jsMove (P : Position) (f t : ℕ) (promo : PieceKind) : Option CMove :=
  (legalMoves P).find? fun m =>
    m.fromSq == f && m.toSq == t &&
      (match m.promo with | none => true | some pk => pk == promo)

/-- `handleManualMove`: `gameRef.current.move({ from, to, promotion: 'q' })`,
returning the updated position on success. -/
def handleManualMove (P : Position) (f t : ℕ) : Option Position :=
  (jsMove P f t .queen).map (applyMove P)

/- ===================== theorems: string toolbox ===================== -/

theorem splitOnP_members_no_p (p : Char → Bool) :
    ∀ (l : Str) (x : Str), x ∈ l.splitOnP p → ∀ c ∈ x, ¬ p c := by
  intro l
  induction l with
  | nil =>
    intro x hx c hc
    simp only [List.splitOnP_nil, List.mem_singleton] at hx
    subst hx
    simp at hc
  | cons a as ih =>
    intro x hx c hc
    rw [List.splitOnP_cons] at hx
    by_cases hpa : p a
    · rw [if_pos hpa] at hx
      rcases List.mem_cons.mp hx with h | h
      · subst h; simp at hc
      · exact ih x h c hc
    · rw [if_neg hpa] at hx
      rcases hsp : as.splitOnP p with _ | ⟨hd, tl⟩
      · exact absurd hsp (List.splitOnP_ne_nil p as)
      · rw [hsp] at hx
        simp only [List.modifyHead, List.mem_cons] at hx
        rcases hx with h | h
        · subst h
          rcases List.mem_cons.mp hc with h | h
          · subst h; exact fun hp => hpa hp
          · exact ih hd (by rw [hsp]; exact List.mem_cons_self hd tl) c h
        · exact ih x (by rw [hsp]; exact List.mem_cons_of_mem hd h) c hc

theorem splitNT_members (s : Str) (x : Str) (hx : x ∈ splitNT s) :
    x ≠ [] ∧ ∀ c ∈ x, ¬ isWs c := by
  unfold splitNT at hx
  have h1 := List.mem_filter.mp hx
  refine ⟨by simpa using h1.2, splitOnP_members_no_p isWs s x h1.1⟩

theorem splitNT_single (a : Str) (hne : a ≠ []) (hws : ∀ c ∈ a, ¬ isWs c) :
    splitNT a = [a] := by
  unfold splitNT
  rw [List.splitOnP_eq_single _ _ (by simpa using hws)]
  simp [hne]

theorem splitNT_sep (a rest : Str) (hne : a ≠ []) (hws : ∀ c ∈ a, ¬ isWs c) :
    splitNT (a ++ ' ' :: rest) = a :: splitNT rest := by
  unfold splitNT
  rw [List.splitOnP_first _ _ (by simpa using hws) ' ' (by decide)]
  simp [hne]

theorem jsTrim_of_ends (a : Str) (h1 : ∀ c, a.head? = some c → ¬ isWs c)
    (h2 : ∀ c, a.getLast? = some c → ¬ isWs c) : jsTrim a = a := by
  unfold jsTrim
  have hdrop : a.dropWhile isWs = a := by
    rcases a with _ | ⟨x, xs⟩
    · rfl
    · exact List.dropWhile_cons_of_neg (by simpa using h1 x rfl)
  rw [hdrop]
  have hdrop2 : a.reverse.dropWhile isWs = a.reverse := by
    rcases hr : a.reverse with _ | ⟨y, ys⟩
    · rfl
    · refine List.dropWhile_cons_of_neg ?_
      have : a.getLast? = some y := by
        rw [← List.head?_reverse, hr]; rfl
      simpa using h2 y this
  rw [hdrop2, List.reverse_reverse]

theorem splitWs_joined (a b c d e f : Str)
    (ha : a ≠ [] ∧ ∀ x ∈ a, ¬ isWs x) (hb : b ≠ [] ∧ ∀ x ∈ b, ¬ isWs x)
    (hc : c ≠ [] ∧ ∀ x ∈ c, ¬ isWs x) (hd : d ≠ [] ∧ ∀ x ∈ d, ¬ isWs x)
    (he : e ≠ [] ∧ ∀ x ∈ e, ¬ isWs x) (hf : f ≠ [] ∧ ∀ x ∈ f, ¬ isWs x) :
    splitWs (a ++ ' ' :: (b ++ ' ' :: (c ++ ' ' :: (d ++ ' ' :: (e ++ ' ' :: f)))))
      = [a, b, c, d, e, f] := by
  have htrim : jsTrim (a ++ ' ' :: (b ++ ' ' :: (c ++ ' ' :: (d ++ ' ' :: (e ++ ' ' :: f)))))
      = a ++ ' ' :: (b ++ ' ' :: (c ++ ' ' :: (d ++ ' ' :: (e ++ ' ' :: f)))) := by
    apply jsTrim_of_ends
    · intro w hw
      rcases a with _ | ⟨x, xs⟩
      · exact absurd rfl ha.1
      · simp only [List.cons_append, List.head?_cons, Option.some_inj] at hw
        exact hw ▸ ha.2 x (List.mem_cons_self x xs)
    · intro w hw
      have heq : a ++ ' ' :: (b ++ ' ' :: (c ++ ' ' :: (d ++ ' ' :: (e ++ ' ' :: f))))
          = (a ++ ' ' :: b ++ ' ' :: c ++ ' ' :: d ++ ' ' :: e ++ [' ']) ++ f := by
        simp
      rw [heq, List.getLast?_append_of_ne_nil _ hf.1] at hw
      rcases hr : f.reverse with _ | ⟨y, ys⟩
      · exact absurd (by simpa using congrArg List.reverse hr) hf.1
      · have hy : f.getLast? = some y := by rw [← List.head?_reverse, hr]; rfl
        rw [hy, Option.some_inj] at hw
        have hmem : y ∈ f := by
          have : y ∈ f.reverse := by rw [hr]; exact List.mem_cons_self y ys
          simpa using this
        exact hw ▸ hf.2 y hmem
  unfold splitWs
  rw [htrim, splitNT_sep _ _ ha.1 ha.2, splitNT_sep _ _ hb.1 hb.2,
    splitNT_sep _ _ hc.1 hc.2, splitNT_sep _ _ hd.1 hd.2,
    splitNT_sep _ _ he.1 he.2, splitNT_single _ hf.1 hf.2]

theorem splitWs_getD_ok (raw dflt : Str) (i : ℕ) (hne : dflt ≠ [])
    (hws : ∀ c ∈ dflt, ¬ isWs c) :
    (splitWs raw).getD i dflt ≠ [] ∧ ∀ c ∈ (splitWs raw).getD i dflt, ¬ isWs c := by
  by_cases h : i < (splitWs raw).length
  · rw [List.getD_eq_getElem _ _ h]
    exact splitNT_members _ _ (List.getElem_mem h)
  · rw [List.getD_eq_default _ _ (Nat.le_of_not_lt h)]
    exact ⟨hne, hws⟩

/- ===================== theorems: C3 and C4 ===================== -/

/-- C3: if the placement field of the raw positional string does not contain
exactly one white king and exactly one black king, `forceValidFen` returns the
canonical starting position in full, regardless of the other fields. -/
theorem C3_repair_bad_kings (raw : Str)
    (h : ((splitWs raw).getD 0 START_BOARD).count 'K' ≠ 1 ∨
         ((splitWs raw).getD 0 START_BOARD).count 'k' ≠ 1) :
    forceValidFen raw = START_FEN := by
  unfold forceValidFen
  split
  · rfl
  · rw [if_pos h]

theorem C3_repair_bad_kings_witness :
    ((splitWs (str "KKkk w KQkq - 0 1")).getD 0 START_BOARD).count 'K' ≠ 1 ∧
    forceValidFen (str "KKkk w KQkq - 0 1") = START_FEN :=
  ⟨by decide, C3_repair_bad_kings _ (Or.inl (by decide))⟩

/-- C4: when the placement field has exactly one king per side, `forceValidFen`
preserves every field actually present and fills only the missing suffix fields
with the documented defaults: the whitespace-split fields of the result are the
placement followed by the present-or-default turn, castling, en-passant,
halfmove and fullmove fields. -/
theorem C4_repair_preserves_fields (raw : Str) (hne : (jsTrim raw).length ≠ 0)
    (hwk : ((splitWs raw).getD 0 START_BOARD).count 'K' = 1)
    (hbk : ((splitWs raw).getD 0 START_BOARD).count 'k' = 1) :
    splitWs (forceValidFen raw) =
      [(splitWs raw).getD 0 START_BOARD, (splitWs raw).getD 1 (str "w"),
       (splitWs raw).getD 2 (str "KQkq"), (splitWs raw).getD 3 (str "-"),
       (splitWs raw).getD 4 (str "0"), (splitWs raw).getD 5 (str "1")] := by
  have hval : forceValidFen raw =
      (splitWs raw).getD 0 START_BOARD ++ ' ' :: ((splitWs raw).getD 1 (str "w") ++ ' ' ::
        ((splitWs raw).getD 2 (str "KQkq") ++ ' ' :: ((splitWs raw).getD 3 (str "-") ++ ' ' ::
          ((splitWs raw).getD 4 (str "0") ++ ' ' :: (splitWs raw).getD 5 (str "1"))))) := by
    unfold forceValidFen
    rw [if_neg hne, if_neg (by push_neg; exact ⟨hwk, hbk⟩)]
  rw [hval]
  exact splitWs_joined _ _ _ _ _ _
    (splitWs_getD_ok raw _ 0 (by decide) (by decide))
    (splitWs_getD_ok raw _ 1 (by decide) (by decide))
    (splitWs_getD_ok raw _ 2 (by decide) (by decide))
    (splitWs_getD_ok raw _ 3 (by decide) (by decide))
    (splitWs_getD_ok raw _ 4 (by decide) (by decide))
    (splitWs_getD_ok raw _ 5 (by decide) (by decide))

theorem C4_repair_preserves_fields_witness :
    (jsTrim (str "4k3/8/8/8/8/8/8/4K3 b")).length ≠ 0 ∧
    splitWs (forceValidFen (str "4k3/8/8/8/8/8/8/4K3 b")) =
      [str "4k3/8/8/8/8/8/8/4K3", str "b", str "KQkq", str "-", str "0", str "1"] := by
  refine ⟨by decide, ?_⟩
  have := C4_repair_preserves_fields (str "4k3/8/8/8/8/8/8/4K3 b")
    (by decide) (by decide) (by decide)
  rw [this]
  decide

/- ===================== theorems: engine service ===================== -/

theorem parseInfoLine_cases (conf : ℚ → ℤ) (st : EngineState) (line : Str) :
    parseInfoLine conf st line = (st, none) ∨
    ∃ pvs d, extractValue line (str "pv") = some pvs ∧
      jsParseInt ((extractValue line (str "depth")).getD (str "0")) = some d ∧
      (pvs ≠ [] ∧ d ≥ 6) ∧
      parseInfoLine conf st line = parseAccept conf st line pvs d := by
  unfold parseInfoLine
  rcases hpv : extractValue line (str "pv") with _ | pvs
  · exact Or.inl rfl
  · rcases hd : jsParseInt ((extractValue line (str "depth")).getD (str "0")) with _ | d
    · exact Or.inl rfl
    · by_cases hcond : pvs ≠ [] ∧ d ≥ 6
      · exact Or.inr ⟨pvs, d, rfl, rfl, hcond,
          by show (if pvs ≠ [] ∧ d ≥ 6 then parseAccept conf st line pvs d
                   else (st, none)) = _
             rw [if_pos hcond]⟩
      · refine Or.inl ?_
        show (if pvs ≠ [] ∧ d ≥ 6 then parseAccept conf st line pvs d
              else (st, none)) = _
        rw [if_neg hcond]

theorem parseAccept_eq (conf : ℚ → ℤ) (st : EngineState) (line : Str) (pvs : Str)
    (d : ℤ) :
    ∃ mv : EngineMove,
      parseAccept conf st line pvs d =
        ({ st with
            currentMoves := mapSet st.currentMoves
              (jsParseInt ((extractValue line (str "multipv")).getD (str "1"))) mv,
            lastNodes := jsParseInt ((extractValue line (str "nodes")).getD (str "0")),
            lastDepth := d },
         if st.hasCallback then
           some { moves := sortedMoves (mapSet st.currentMoves
                    (jsParseInt ((extractValue line (str "multipv")).getD (str "1"))) mv),
                  nodes := jsParseInt ((extractValue line (str "nodes")).getD (str "0")),
                  depth := d, fen := st.activeFen }
         else none) :=
  ⟨_, rfl⟩

theorem parseInfoLine_activeFen (conf : ℚ → ℤ) (st : EngineState) (line : Str) :
    (parseInfoLine conf st line).1.activeFen = st.activeFen := by
  rcases parseInfoLine_cases conf st line with h | ⟨pvs, d, _, _, _, h⟩
  · rw [h]
  · rw [h]
    obtain ⟨mv, hmv⟩ := parseAccept_eq conf st line pvs d
    rw [hmv]

theorem parseInfoLine_fen (conf : ℚ → ℤ) (st : EngineState) (line : Str)
    (res : EngineResult) (h : (parseInfoLine conf st line).2 = some res) :
    res.fen = st.activeFen := by
  rcases parseInfoLine_cases conf st line with heq | ⟨pvs, d, _, _, _, heq⟩
  · rw [heq] at h
    exact absurd h (by simp)
  · rw [heq] at h
    obtain ⟨mv, hmv⟩ := parseAccept_eq conf st line pvs d
    rw [hmv] at h
    simp only at h
    split at h
    · rw [Option.some_inj] at h
      rw [← h]
    · exact absurd h (by simp)

theorem analyze_activeFen (st : EngineState) (fen : Str) :
    (analyze st fen).activeFen = fen := by
  unfold analyze
  split
  · simp_all
  · rfl

theorem coordStep_info_inv (conf : ℚ → ℤ) (cs : CoordState)
    (h : cs.eng.activeFen = cs.currentFen) (line : Str) :
    (coordStep conf cs (.infoLine line)).currentFen = cs.currentFen ∧
    (coordStep conf cs (.infoLine line)).eng.activeFen = cs.currentFen ∧
    ((coordStep conf cs (.infoLine line)).engineResult = cs.engineResult ∨
      ∃ res, res.fen = cs.currentFen ∧
        (coordStep conf cs (.infoLine line)).engineResult = some res) := by
  unfold coordStep
  simp only
  split
  · rename_i res hres
    unfold onEngineResult
    split
    · rename_i hfen
      refine ⟨rfl, ?_, Or.inr ⟨res, by simpa using hfen, rfl⟩⟩
      simpa [parseInfoLine_activeFen] using h
    · exact ⟨rfl, by simpa [parseInfoLine_activeFen] using h, Or.inl rfl⟩
  · exact ⟨rfl, by simpa [parseInfoLine_activeFen] using h, Or.inl rfl⟩

theorem coordFold_inv (conf : ℚ → ℤ) (cs : CoordState)
    (h : cs.eng.activeFen = cs.currentFen) (lines : List Str) :
    ((lines.map CoordEvent.infoLine).foldl (coordStep conf) cs).currentFen
        = cs.currentFen ∧
    ((lines.map CoordEvent.infoLine).foldl (coordStep conf) cs).eng.activeFen
        = cs.currentFen ∧
    (((lines.map CoordEvent.infoLine).foldl (coordStep conf) cs).engineResult
          = cs.engineResult ∨
      ∃ res, res.fen = cs.currentFen ∧
        ((lines.map CoordEvent.infoLine).foldl (coordStep conf) cs).engineResult
          = some res) := by
  induction lines generalizing cs with
  | nil => exact ⟨rfl, h, Or.inl rfl⟩
  | cons l ls ih =>
    simp only [List.map_cons, List.foldl_cons]
    obtain ⟨h1, h2, h3⟩ := coordStep_info_inv conf cs h l
    obtain ⟨ih1, ih2, ih3⟩ := ih (coordStep conf cs (.infoLine l)) (h1 ▸ h2)
    refine ⟨by rw [ih1, h1], by rw [ih2, h1], ?_⟩
    rcases ih3 with heq | ⟨res, hres, hpub⟩
    · rcases h3 with heq2 | ⟨res, hres, hpub⟩
      · exact Or.inl (by rw [heq, heq2])
      · exact Or.inr ⟨res, hres, by rw [heq, hpub]⟩
    · exact Or.inr ⟨res, by rw [hres, h1], hpub⟩

/-- C1: after the coordinator transitions to analyzing `P2 ≠ P1`, the
authoritative fen is `P2`; any streamed result tagged with the stale `P1` is
dropped by the acceptance filter with no change to the published state; and
across any further stream of engine info lines the published `AnalysisResult`
either stays what it was at the transition or is replaced only by results
tagged with the currently authoritative `P2` — never by one tagged `P1`. -/
theorem C1_stale_results_dropped (conf : ℚ → ℤ) (cs : CoordState) (P1 P2 : Str)
    (hne : P1 ≠ P2) (lines : List Str) :
    ((lines.map CoordEvent.infoLine).foldl (coordStep conf)
        (coordStep conf cs (.request P2))).currentFen = P2 ∧
    (∀ res : EngineResult, res.fen = P1 →
      onEngineResult ((lines.map CoordEvent.infoLine).foldl (coordStep conf)
        (coordStep conf cs (.request P2))) res
        = (lines.map CoordEvent.infoLine).foldl (coordStep conf)
            (coordStep conf cs (.request P2))) ∧
    (((lines.map CoordEvent.infoLine).foldl (coordStep conf)
        (coordStep conf cs (.request P2))).engineResult
        = (coordStep conf cs (.request P2)).engineResult ∨
      ∃ res, res.fen = P2 ∧
        ((lines.map CoordEvent.infoLine).foldl (coordStep conf)
          (coordStep conf cs (.request P2))).engineResult = some res) := by
  have hstart : (coordStep conf cs (.request P2)).eng.activeFen
      = (coordStep conf cs (.request P2)).currentFen := by
    show (analyze cs.eng P2).activeFen = P2
    exact analyze_activeFen _ _
  obtain ⟨h1, h2, h3⟩ := coordFold_inv conf (coordStep conf cs (.request P2)) hstart lines
  have hcur : (coordStep conf cs (.request P2)).currentFen = P2 := rfl
  refine ⟨by rw [h1, hcur], ?_, ?_⟩
  · intro res hres
    unfold onEngineResult
    rw [if_neg]
    rw [h1, hcur, hres]
    exact hne
  · rcases h3 with heq | ⟨res, hres, hpub⟩
    · exact Or.inl heq
    · exact Or.inr ⟨res, by rw [hres, hcur], hpub⟩

theorem C1_stale_results_dropped_witness :
    (str "fen-one") ≠ (str "fen-two") ∧
    ((([] : List Str).map CoordEvent.infoLine).foldl (coordStep (fun _ => 0))
      (coordStep (fun _ => 0)
        ⟨initialEngine, str "fen-one", none, false⟩
        (.request (str "fen-two")))).currentFen = str "fen-two" :=
  ⟨by decide,
    (C1_stale_results_dropped (fun _ => 0)
      ⟨initialEngine, str "fen-one", none, false⟩
      (str "fen-one") (str "fen-two") (by decide) []).1⟩

theorem mapLookup_mapSet_self (m : List (Option ℤ × EngineMove)) (k : Option ℤ)
    (v : EngineMove) : mapLookup (mapSet m k v) k = some v := by
  induction m with
  | nil => simp [mapSet, mapLookup]
  | cons p rest ih =>
    by_cases h : p.1 = k
    · simp [mapSet, mapLookup, h]
    · simp [mapSet, mapLookup, h, ih]

theorem mapLookup_mapSet_ne (m : List (Option ℤ × EngineMove)) (k q : Option ℤ)
    (v : EngineMove) (h : q ≠ k) :
    mapLookup (mapSet m k v) q = mapLookup m q := by
  induction m with
  | nil => simp [mapSet, mapLookup, Ne.symm h]
  | cons p rest ih =>
    by_cases hp : p.1 = k
    · have hq : p.1 ≠ q := by rw [hp]; exact Ne.symm h
      simp [mapSet, mapLookup, hp, hq, Ne.symm h]
    · simp [mapSet, mapLookup, hp, ih]

theorem sortedRank_mergeSort (m : List (Option ℤ × EngineMove)) :
    List.Pairwise (fun p q : Option ℤ × EngineMove => rankKey p.1 ≤ rankKey q.1)
      (m.mergeSort (fun p q => decide (rankKey p.1 ≤ rankKey q.1))) := by
  have h := @List.sorted_mergeSort _
    (fun p q : Option ℤ × EngineMove => decide (rankKey p.1 ≤ rankKey q.1))
    (fun a b c hab hbc => by
      simp only [decide_eq_true_eq] at *
      exact le_trans hab hbc)
    (fun a b => by
      simp only [Bool.or_eq_true, decide_eq_true_eq]
      exact le_total _ _) m
  exact h.imp (fun hab => by simpa using hab)

/-- C8: on an accepted partial result (a `pv` token present, numeric depth at
least 6, numeric rank, a registered callback), the coordinator stores the new
line under its rank without discarding the entries of the other ranks, and
republishes a result tagged with the active fen whose move list is the complete
current rank map sorted by rank ascending. -/
theorem C8_rank_map (conf : ℚ → ℤ) (st : EngineState) (line : Str)
    (pvs : Str) (d r : ℤ)
    (hpv : extractValue line (str "pv") = some pvs) (hpvne : pvs ≠ [])
    (hd : jsParseInt ((extractValue line (str "depth")).getD (str "0")) = some d)
    (hd6 : d ≥ 6)
    (hr : jsParseInt ((extractValue line (str "multipv")).getD (str "1")) = some r)
    (hcb : st.hasCallback = true) :
    (∀ k, k ≠ some r →
      mapLookup (parseInfoLine conf st line).1.currentMoves k
        = mapLookup st.currentMoves k) ∧
    (∃ mv, mapLookup (parseInfoLine conf st line).1.currentMoves (some r) = some mv) ∧
    (∃ res sorted, (parseInfoLine conf st line).2 = some res ∧
      res.fen = st.activeFen ∧
      sorted.Perm (parseInfoLine conf st line).1.currentMoves ∧
      List.Pairwise (fun p q : Option ℤ × EngineMove => rankKey p.1 ≤ rankKey q.1)
        sorted ∧
      res.moves = sorted.map (fun p => p.2)) := by
  have heq : parseInfoLine conf st line = parseAccept conf st line pvs d := by
    unfold parseInfoLine
    rw [hpv, hd]
    show (if pvs ≠ [] ∧ d ≥ 6 then parseAccept conf st line pvs d
          else (st, none)) = parseAccept conf st line pvs d
    exact if_pos ⟨hpvne, hd6⟩
  obtain ⟨mv, hmv⟩ := parseAccept_eq conf st line pvs d
  rw [hr] at hmv
  rw [heq, hmv, if_pos hcb]
  refine ⟨fun k hk => mapLookup_mapSet_ne _ _ _ _ hk,
    ⟨_, mapLookup_mapSet_self _ _ _⟩, ?_⟩
  exact ⟨_, _, rfl, rfl, List.mergeSort_perm _ _, sortedRank_mergeSort _, rfl⟩

/- ===================== theorems: estimator ===================== -/

/-- C5: (spec-modelled) the SuspicionScore update is asymmetric: on an exact
match it is `min ceil (s + inc)`, bounded above by the ceiling; on a no-match
it is `max 0 (s - dec)`, bounded below at zero; and from the ceiling a single
no-match leaves the score at or above `ceil - inc - dec`. -/
theorem C5_suspicion_asymmetric (p : SuspicionParams) (hinc : 0 < p.inc)
    (hdec : 0 < p.dec) (hlt : p.dec < p.inc) (hceil : 0 ≤ p.ceil)
    (t mv : MoveRef) (s : ℤ) (hs : 0 ≤ s) :
    ((t.fromSq = mv.fromSq ∧ t.toSq = mv.toSq) →
        observeSuspicion p (some t) mv s = min p.ceil (s + p.inc) ∧
        observeSuspicion p (some t) mv s ≤ p.ceil) ∧
    (¬ (t.fromSq = mv.fromSq ∧ t.toSq = mv.toSq) →
        observeSuspicion p (some t) mv s = max 0 (s - p.dec) ∧
        0 ≤ observeSuspicion p (some t) mv s) ∧
    (¬ (t.fromSq = mv.fromSq ∧ t.toSq = mv.toSq) →
        p.ceil - p.inc - p.dec ≤ observeSuspicion p (some t) mv p.ceil) := by
  simp only [observeSuspicion]
  refine ⟨fun h => ?_, fun h => ?_, fun h => ?_⟩
  · rw [if_pos h]
    exact ⟨rfl, min_le_left _ _⟩
  · rw [if_neg h]
    exact ⟨rfl, le_max_left 0 _⟩
  · rw [if_neg h]
    exact le_max_of_le_right (by omega)

theorem C5_suspicion_asymmetric_witness :
    (0 : ℤ) < 25 ∧
    (100 : ℤ) - 25 - 10 ≤
      observeSuspicion ⟨25, 10, 100⟩ (some ⟨str "e2", str "e4"⟩) ⟨str "a7", str "a5"⟩ 100 :=
  ⟨by decide,
    (C5_suspicion_asymmetric ⟨25, 10, 100⟩ (by decide) (by decide) (by decide)
      (by decide) ⟨str "e2", str "e4"⟩ ⟨str "a7", str "a5"⟩ 0 (by decide)).2.2
      (by decide)⟩

theorem estRun_acc (obs : List (MoveRef × MoveRef)) :
    ∀ st : EstState, (obs.foldl estStep st).opponentMoveAccuracy
      = st.opponentMoveAccuracy ++ obs.map accOf := by
  induction obs with
  | nil => intro st; simp
  | cons o os ih =>
    intro st
    simp only [List.foldl_cons, List.map_cons]
    rw [ih]
    show (updateEstimator true (some o.1) (some o.2) st).opponentMoveAccuracy
        ++ os.map accOf = _
    unfold updateEstimator accOf
    simp

theorem estStep_eq (st : EstState) (o : MoveRef × MoveRef) :
    estStep st o = {
      opponentMoveAccuracy := st.opponentMoveAccuracy ++ [accOf o],
      estimatedElo := round ((800 : ℚ) +
        (st.opponentMoveAccuracy ++ [accOf o]).sum
          / (((st.opponentMoveAccuracy ++ [accOf o]).length : ℚ)) * 22),
      eloStability := min 100 ((st.opponentMoveAccuracy ++ [accOf o]).length * 10) } := by
  show updateEstimator true (some o.1) (some o.2) st = _
  unfold updateEstimator accOf
  simp

/-- C6 (amended): after every recorded sample, the rating is the JS-rounded
value `round (800 + matchRate * 22)` where the match rate is the simple mean of
the 100/0 samples over the unbounded history, and the stability is
`min 100 (10 * count)`, monotonically nondecreasing in the sample count. -/
theorem C6_estimator_formula (obs : List (MoveRef × MoveRef)) :
    (obs.foldl estStep initialEst).opponentMoveAccuracy = obs.map accOf ∧
    (obs.foldl estStep initialEst).estimatedElo
      = round ((800 : ℚ) + (obs.map accOf).sum / ((obs.map accOf).length : ℚ) * 22) ∧
    (obs.foldl estStep initialEst).eloStability = min 100 ((obs.map accOf).length * 10) ∧
    ∀ o, (obs.foldl estStep initialEst).eloStability
      ≤ (estStep (obs.foldl estStep initialEst) o).eloStability := by
  induction obs using List.reverseRecOn with
  | nil =>
    refine ⟨rfl, ?_, by decide, ?_⟩
    · show (800 : ℤ) = round ((800 : ℚ) + (([] : List (MoveRef × MoveRef)).map accOf).sum
        / (((([] : List (MoveRef × MoveRef)).map accOf).length : ℕ) : ℚ) * 22)
      have h8 : ((800 : ℚ) + (([] : List (MoveRef × MoveRef)).map accOf).sum
          / (((([] : List (MoveRef × MoveRef)).map accOf).length : ℕ) : ℚ) * 22)
          = ((800 : ℤ) : ℚ) := by norm_num
      rw [h8, round_intCast]
    · intro o
      rw [estStep_eq]
      exact Nat.zero_le _
  | append_singleton l o ih =>
    have hlacc : (List.foldl estStep initialEst l).opponentMoveAccuracy
        = List.map accOf l := by
      simpa [initialEst] using estRun_acc l initialEst
    simp only [List.foldl_append, List.foldl_cons, List.foldl_nil, List.map_append,
      List.map_cons, List.map_nil]
    rw [estStep_eq, hlacc]
    refine ⟨rfl, rfl, rfl, ?_⟩
    intro o2
    rw [estStep_eq]
    simp only [List.length_append, List.length_cons, List.length_nil]
    exact min_le_min (le_refl 100) (by omega)

theorem C6_counterexample :
    ¬ (((estStep (estStep (estStep initialEst
          (⟨str "e2", str "e4"⟩, ⟨str "e2", str "e4"⟩))
          (⟨str "d2", str "d4"⟩, ⟨str "e2", str "e4"⟩))
          (⟨str "d2", str "d4"⟩, ⟨str "e2", str "e4"⟩)).estimatedElo : ℚ)
        = 800 + 22 *
          ((estStep (estStep (estStep initialEst
            (⟨str "e2", str "e4"⟩, ⟨str "e2", str "e4"⟩))
            (⟨str "d2", str "d4"⟩, ⟨str "e2", str "e4"⟩))
            (⟨str "d2", str "d4"⟩, ⟨str "e2", str "e4"⟩)).opponentMoveAccuracy.sum /
           ((estStep (estStep (estStep initialEst
            (⟨str "e2", str "e4"⟩, ⟨str "e2", str "e4"⟩))
            (⟨str "d2", str "d4"⟩, ⟨str "e2", str "e4"⟩))
            (⟨str "d2", str "d4"⟩, ⟨str "e2", str "e4"⟩)).opponentMoveAccuracy.length : ℚ))) := by
  have hacc1 : accOf ((⟨str "e2", str "e4"⟩ : MoveRef), (⟨str "e2", str "e4"⟩ : MoveRef))
      = 100 := by
    unfold accOf
    rw [if_pos ⟨rfl, rfl⟩]
  have hacc0 : accOf ((⟨str "d2", str "d4"⟩ : MoveRef), (⟨str "e2", str "e4"⟩ : MoveRef))
      = 0 := by
    unfold accOf
    rw [if_neg (fun h => absurd h.1 (by decide))]
  rw [estStep_eq, estStep_eq, estStep_eq, hacc1, hacc0]
  simp only [initialEst, List.nil_append, List.cons_append, List.sum_cons,
    List.sum_nil, List.length_cons, List.length_nil]
  intro h
  rw [round_eq] at h
  norm_num at h

/-- C7: when no engine top-move prediction is available (`null`), the
observation is skipped entirely: the estimator state (rolling sample list,
rating, stability) is unchanged by the frame's update block, and the
(spec-modelled) SuspicionScore observe is a no-op. -/
theorem C7_no_prediction_skips (w : Bool) (mv : Option MoveRef) (st : EstState)
    (p : SuspicionParams) (obsMove : MoveRef) (s : ℤ) :
    updateEstimator w mv none st = st ∧ observeSuspicion p none obsMove s = s := by
  constructor
  · cases w <;> cases mv <;> rfl
  · rfl

theorem C8_rank_map_witness :
    extractValue (str "info depth 10 nodes 500 multipv 1 cp 30 pv e2e4 e7e5")
        (str "pv") = some (str "e2e4") ∧
    mapLookup (parseInfoLine (fun _ => 0)
        (⟨[], some 0, 0, str "F", true⟩ : EngineState)
        (str "info depth 10 nodes 500 multipv 1 cp 30 pv e2e4 e7e5")).1.currentMoves
        (some 2)
      = mapLookup (⟨[], some 0, 0, str "F", true⟩ : EngineState).currentMoves (some 2) ∧
    (mapLookup (parseInfoLine (fun _ => 0)
        (⟨[], some 0, 0, str "F", true⟩ : EngineState)
        (str "info depth 10 nodes 500 multipv 1 cp 30 pv e2e4 e7e5")).1.currentMoves
        (some 1)).isSome = true := by
  refine ⟨by decide, ?_, ?_⟩
  · exact (C8_rank_map (fun _ => 0) ⟨[], some 0, 0, str "F", true⟩
      (str "info depth 10 nodes 500 multipv 1 cp 30 pv e2e4 e7e5")
      (str "e2e4") 10 1 (by decide) (by decide) (by decide) (by decide)
      (by decide) rfl).1 (some 2) (by decide)
  · obtain ⟨mv, hm⟩ := (C8_rank_map (fun _ => 0) ⟨[], some 0, 0, str "F", true⟩
      (str "info depth 10 nodes 500 multipv 1 cp 30 pv e2e4 e7e5")
      (str "e2e4") 10 1 (by decide) (by decide) (by decide) (by decide)
      (by decide) rfl).2.1
    rw [hm]
    rfl

/- ===================== theorems: manual-override window ===================== -/

/-- C9: a successful local move starts the bounded local-override window: the
flag goes active with a fresh timer due in 8000 ms; while the flag is active
every frame capture is dropped without any processing (for every possible rest
of the handler); firing the pending timer deactivates the window by itself,
after which frames are processed again; and a second local move before expiry
restarts the window from zero — the new deadline is 8000 ms from the second
move and the first move's (cleared) timer can no longer fire: firing it is a
no-op. -/
theorem C9_override_window (st : OverrideState) (now nowB : ℕ) :
    ((startOverride now st).manualOverrideActive = true ∧
      (startOverride now st).manualPauseTimer = some (st.nextTimerId, now + 8000)) ∧
    (∀ (α : Type) (process : α → α) (v a : Bool) (app : α),
      frameStep process v a true app = app) ∧
    ((fireTimer st.nextTimerId (startOverride now st)).manualOverrideActive = false ∧
      ∀ (α : Type) (process : α → α) (app : α),
        frameStep process false true
          (fireTimer st.nextTimerId (startOverride now st)).manualOverrideActive app
          = process app) ∧
    ((startOverride nowB (startOverride now st)).manualPauseTimer
        = some (st.nextTimerId + 1, nowB + 8000) ∧
      fireTimer st.nextTimerId (startOverride nowB (startOverride now st))
        = startOverride nowB (startOverride now st)) := by
  refine ⟨⟨rfl, rfl⟩, ?_, ⟨?_, ?_⟩, ⟨rfl, ?_⟩⟩
  · intro α process v a app
    unfold frameStep
    rw [if_pos]
    simp
  · unfold fireTimer startOverride
    simp
  · intro α process app
    unfold fireTimer startOverride
    simp only [if_pos rfl]
    unfold frameStep
    simp
  · unfold fireTimer startOverride
    simp

/- ===================== theorems: move generator occupancy ===================== -/

theorem other_ne (c : PieceColor) : c.other ≠ c := by
  cases c <;> decide

theorem offSq_lt (sq : ℕ) (dr df : ℤ) (t : ℕ) (h : offSq sq dr df = some t) :
    t < 64 := by
  simp only [offSq] at h
  split at h
  · rename_i hcond
    rw [Option.some_inj] at h
    omega
  · exact absurd h (by simp)

theorem ray_lt (b : Board) (d : ℤ × ℤ) :
    ∀ (fuel : ℕ) (sq t : ℕ), t ∈ ray b sq d fuel → t < 64 := by
  intro fuel
  induction fuel with
  | zero => intro sq t h; simp [ray] at h
  | succ n ih =>
    intro sq t h
    unfold ray at h
    split at h
    · simp at h
    · rename_i u hu
      split at h
      · simp at h
        subst h
        exact offSq_lt _ _ _ _ hu
      · rcases List.mem_cons.mp h with h | h
        · subst h
          exact offSq_lt _ _ _ _ hu
        · exact ih u t h

theorem from_ne_to_occ (b : Board) (turn : PieceColor) (i t : ℕ) (pk : PieceKind)
    (hfrom : b i = some ⟨turn, pk⟩)
    (hto : b t = none ∨ ∃ q, b t = some q ∧ q.pcolor = turn.other) : i ≠ t := by
  intro h
  subst h
  rcases hto with h | ⟨q, hq, hc⟩
  · rw [hfrom] at h
    exact absurd h (by simp)
  · rw [hfrom, Option.some_inj] at hq
    rw [← hq] at hc
    exact other_ne turn hc.symm

theorem stepMoves_spec (P : Position) (i : ℕ) (dirs : List (ℤ × ℤ)) (k : PieceKind)
    (pk0 : PieceKind) (hi : i < 64) (hfrom : P.board i = some ⟨P.turn, pk0⟩)
    (m : CMove) (hm : m ∈ stepMoves P i dirs k) : MSpec P m := by
  unfold stepMoves at hm
  rw [List.mem_flatMap] at hm
  obtain ⟨d, _, hm⟩ := hm
  split at hm
  · rename_i t ht
    split at hm
    · rename_i hbt
      simp at hm
      subst hm
      exact ⟨hi, offSq_lt _ _ _ _ ht,
        from_ne_to_occ _ _ _ _ _ hfrom (Or.inl hbt), ⟨pk0, hfrom⟩, Or.inl hbt⟩
    · rename_i q hq
      split at hm
      · rename_i henemy
        simp at hm
        subst hm
        exact ⟨hi, offSq_lt _ _ _ _ ht,
          from_ne_to_occ _ _ _ _ _ hfrom (Or.inr ⟨q, hq, henemy⟩), ⟨pk0, hfrom⟩,
          Or.inr ⟨q, hq, henemy⟩⟩
      · simp at hm
  · simp at hm

theorem slideMoves_spec (P : Position) (i : ℕ) (dirs : List (ℤ × ℤ)) (k : PieceKind)
    (pk0 : PieceKind) (hi : i < 64) (hfrom : P.board i = some ⟨P.turn, pk0⟩)
    (m : CMove) (hm : m ∈ slideMoves P i dirs k) : MSpec P m := by
  unfold slideMoves at hm
  rw [List.mem_flatMap] at hm
  obtain ⟨d, _, hm⟩ := hm
  rw [List.mem_flatMap] at hm
  obtain ⟨t, ht, hm⟩ := hm
  have ht64 : t < 64 := ray_lt P.board d 7 i t ht
  split at hm
  · rename_i hbt
    simp at hm
    subst hm
    exact ⟨hi, ht64, from_ne_to_occ _ _ _ _ _ hfrom (Or.inl hbt), ⟨pk0, hfrom⟩,
      Or.inl hbt⟩
  · rename_i q hq
    split at hm
    · rename_i henemy
      simp at hm
      subst hm
      exact ⟨hi, ht64, from_ne_to_occ _ _ _ _ _ hfrom (Or.inr ⟨q, hq, henemy⟩),
        ⟨pk0, hfrom⟩, Or.inr ⟨q, hq, henemy⟩⟩
    · simp at hm

theorem pawnPushes_spec (P : Position) (i : ℕ) (pk0 : PieceKind) (hi : i < 64)
    (hfrom : P.board i = some ⟨P.turn, pk0⟩)
    (m : CMove) (hm : m ∈ pawnPushes P i) : MSpec P m := by
  unfold pawnPushes at hm
  split at hm
  · rename_i t ht
    split at hm
    · rename_i hbt
      rw [List.mem_append] at hm
      rcases hm with hm | hm
      · split at hm
        · rw [List.mem_map] at hm
          obtain ⟨k, _, hk⟩ := hm
          subst hk
          exact ⟨hi, offSq_lt _ _ _ _ ht,
            from_ne_to_occ _ _ _ _ _ hfrom (Or.inl hbt), ⟨pk0, hfrom⟩, Or.inl hbt⟩
        · simp at hm
          subst hm
          exact ⟨hi, offSq_lt _ _ _ _ ht,
            from_ne_to_occ _ _ _ _ _ hfrom (Or.inl hbt), ⟨pk0, hfrom⟩, Or.inl hbt⟩
      · split at hm
        · split at hm
          · rename_i t2 ht2
            split at hm
            · rename_i hbt2
              simp at hm
              subst hm
              exact ⟨hi, offSq_lt _ _ _ _ ht2,
                from_ne_to_occ _ _ _ _ _ hfrom (Or.inl hbt2), ⟨pk0, hfrom⟩,
                Or.inl hbt2⟩
            · simp at hm
          · simp at hm
        · simp at hm
    · simp at hm
  · simp at hm

theorem pawnCaptures_spec (P : Position) (i : ℕ) (pk0 : PieceKind) (hi : i < 64)
    (hOK : BoardOK P.board) (hfrom : P.board i = some ⟨P.turn, pk0⟩)
    (m : CMove) (hm : m ∈ pawnCaptures P i) : MSpec P m := by
  unfold pawnCaptures at hm
  rw [List.mem_flatMap] at hm
  obtain ⟨df, _, hm⟩ := hm
  split at hm
  · rename_i t ht
    rw [List.mem_append] at hm
    rcases hm with hm | hm
    · split at hm
      · rename_i q hq
        split at hm
        · rename_i henemy
          split at hm
          · rw [List.mem_map] at hm
            obtain ⟨k, _, hk⟩ := hm
            subst hk
            exact ⟨hi, offSq_lt _ _ _ _ ht,
              from_ne_to_occ _ _ _ _ _ hfrom (Or.inr ⟨q, hq, henemy⟩),
              ⟨pk0, hfrom⟩, Or.inr ⟨q, hq, henemy⟩⟩
          · simp at hm
            subst hm
            exact ⟨hi, offSq_lt _ _ _ _ ht,
              from_ne_to_occ _ _ _ _ _ hfrom (Or.inr ⟨q, hq, henemy⟩),
              ⟨pk0, hfrom⟩, Or.inr ⟨q, hq, henemy⟩⟩
        · simp at hm
      · simp at hm
    · split at hm
      · rename_i hep
        obtain ⟨hepsq, hbt, hcap⟩ := hep
        simp at hm
        subst hm
        have hcap64 : epCapSq P.turn t < 64 := by
          by_contra hge
          rw [hOK _ (Nat.le_of_not_lt hge)] at hcap
          exact absurd hcap (by simp)
        have hcapne_i : epCapSq P.turn t ≠ i := by
          intro h
          rw [h, hfrom, Option.some_inj] at hcap
          have : P.turn.other = P.turn := congrArg Piece.pcolor hcap.symm
          exact other_ne P.turn this
        have hcapne_t : epCapSq P.turn t ≠ t := by
          intro h
          rw [h, hbt] at hcap
          exact absurd hcap (by simp)
        exact ⟨hi, offSq_lt _ _ _ _ ht,
          from_ne_to_occ _ _ _ _ _ hfrom (Or.inl hbt), ⟨pk0, hfrom⟩,
          hbt, hcap64, hcapne_i, hcapne_t, hcap⟩
      · simp at hm
  · simp at hm

theorem castleMoves_spec (P : Position) (i : ℕ) (m : CMove)
    (hm : m ∈ castleMoves P i) : MSpec P m := by
  unfold castleMoves at hm
  rw [List.mem_append] at hm
  rcases hm with hm | hm
  · split at hm
    · rename_i hg
      obtain ⟨_, _, hbk, hbr, h1, h2, _, _⟩ := hg
      simp at hm
      subst hm
      refine ⟨?_, ?_, ?_, ⟨.king, hbk⟩, rfl, rfl, hbk, hbr, h1, h2⟩
      · cases P.turn <;> decide
      · cases P.turn <;> decide
      · cases P.turn <;> decide
    · simp at hm
  · split at hm
    · rename_i hg
      obtain ⟨_, _, hbk, hbr, h1, h2, h3, _, _⟩ := hg
      simp at hm
      subst hm
      refine ⟨?_, ?_, ?_, ⟨.king, hbk⟩, rfl, rfl, hbk, hbr, h1, h2, h3⟩
      · cases P.turn <;> decide
      · cases P.turn <;> decide
      · cases P.turn <;> decide
    · simp at hm

theorem pieceMoves_spec (P : Position) (i : ℕ) (hi : i < 64) (hOK : BoardOK P.board)
    (m : CMove) (hm : m ∈ pieceMoves P i) : MSpec P m := by
  unfold pieceMoves at hm
  split at hm
  · rename_i pc hpc
    rcases pc with ⟨c, k⟩
    split at hm
    · rename_i hcol
      simp only at hcol
      subst hcol
      split at hm
      · rw [List.mem_append] at hm
        rcases hm with hm | hm
        · exact pawnPushes_spec P i _ hi hpc m hm
        · exact pawnCaptures_spec P i _ hi hOK hpc m hm
      · exact stepMoves_spec P i _ _ _ hi hpc m hm
      · exact slideMoves_spec P i _ _ _ hi hpc m hm
      · exact slideMoves_spec P i _ _ _ hi hpc m hm
      · exact slideMoves_spec P i _ _ _ hi hpc m hm
      · rw [List.mem_append] at hm
        rcases hm with hm | hm
        · exact stepMoves_spec P i _ _ _ hi hpc m hm
        · exact castleMoves_spec P i m hm
    · simp at hm
  · simp at hm

theorem legalMoves_spec (P : Position) (hOK : BoardOK P.board) (m : CMove)
    (hm : m ∈ legalMoves P) : MSpec P m := by
  unfold legalMoves at hm
  have hm2 := (List.mem_filter.mp hm).1
  unfold pseudoMoves at hm2
  rw [List.mem_flatMap] at hm2
  obtain ⟨i, hi, hm2⟩ := hm2
  exact pieceMoves_spec P i (List.mem_range.mp hi) hOK m hm2

/- ===================== theorems: board-effect characterization ===================== -/

theorem promoted_pcolor (t : PieceColor) (m : CMove) : (promoted t m).pcolor = t := rfl

theorem applyBoard_simple (P : Position) (m : CMove) (hs : MSpec P m)
    (hflag : m.flag = .normal ∨ m.flag = .pawnTwo) :
    applyBoard P.board P.turn m m.fromSq = none ∧
    applyBoard P.board P.turn m m.toSq = some (promoted P.turn m) ∧
    (∀ s, s ≠ m.fromSq → s ≠ m.toSq → applyBoard P.board P.turn m s = P.board s) := by
  obtain ⟨_, _, hne, _, _⟩ := hs
  have heq : applyBoard P.board P.turn m
      = Function.update (Function.update P.board m.fromSq none) m.toSq
          (some (promoted P.turn m)) := by
    rcases hflag with h | h <;> (unfold applyBoard; rw [h])
  rw [heq]
  refine ⟨?_, ?_, ?_⟩
  · rw [Function.update_noteq hne, Function.update_same]
  · rw [Function.update_same]
  · intro s hsf hst
    rw [Function.update_noteq hst, Function.update_noteq hsf]

theorem applyBoard_ep (P : Position) (m : CMove) (hs : MSpec P m)
    (hflag : m.flag = .enPassant) :
    applyBoard P.board P.turn m m.fromSq = none ∧
    applyBoard P.board P.turn m m.toSq = some ⟨P.turn, .pawn⟩ ∧
    applyBoard P.board P.turn m (epCapSq P.turn m.toSq) = none ∧
    (∀ s, s ≠ m.fromSq → s ≠ m.toSq → s ≠ epCapSq P.turn m.toSq →
      applyBoard P.board P.turn m s = P.board s) := by
  obtain ⟨_, _, hne, _, hspec⟩ := hs
  rw [hflag] at hspec
  obtain ⟨hbt, hcap64, hci, hct, hcap⟩ := hspec
  have heq : applyBoard P.board P.turn m
      = Function.update (Function.update (Function.update P.board m.fromSq none)
          m.toSq (some ⟨P.turn, .pawn⟩)) (epCapSq P.turn m.toSq) none := by
    unfold applyBoard
    rw [hflag]
  rw [heq]
  refine ⟨?_, ?_, ?_, ?_⟩
  · rw [Function.update_noteq (Ne.symm hci), Function.update_noteq hne,
      Function.update_same]
  · rw [Function.update_noteq (Ne.symm hct), Function.update_same]
  · rw [Function.update_same]
  · intro s hsf hst hsc
    rw [Function.update_noteq hsc, Function.update_noteq hst,
      Function.update_noteq hsf]

theorem castleK_distinct (c : PieceColor) :
    kingHome c ≠ rookHomeK c ∧ kingHome c ≠ kingHome c + 2 ∧
    kingHome c ≠ kingHome c + 1 ∧ rookHomeK c ≠ kingHome c + 2 ∧
    rookHomeK c ≠ kingHome c + 1 ∧ kingHome c + 2 ≠ kingHome c + 1 := by
  cases c <;> decide

theorem castleQ_distinct (c : PieceColor) :
    kingHome c ≠ rookHomeQ c ∧ kingHome c ≠ kingHome c - 2 ∧
    kingHome c ≠ kingHome c - 1 ∧ rookHomeQ c ≠ kingHome c - 2 ∧
    rookHomeQ c ≠ kingHome c - 1 ∧ kingHome c - 2 ≠ kingHome c - 1 := by
  cases c <;> decide

theorem applyBoard_castleK (P : Position) (m : CMove) (hflag : m.flag = .castleK) :
    applyBoard P.board P.turn m (kingHome P.turn) = none ∧
    applyBoard P.board P.turn m (rookHomeK P.turn) = none ∧
    applyBoard P.board P.turn m (kingHome P.turn + 2) = some ⟨P.turn, .king⟩ ∧
    applyBoard P.board P.turn m (kingHome P.turn + 1) = some ⟨P.turn, .rook⟩ ∧
    (∀ s, s ≠ kingHome P.turn → s ≠ rookHomeK P.turn → s ≠ kingHome P.turn + 2 →
      s ≠ kingHome P.turn + 1 → applyBoard P.board P.turn m s = P.board s) := by
  obtain ⟨d1, d2, d3, d4, d5, d6⟩ := castleK_distinct P.turn
  have heq : applyBoard P.board P.turn m
      = Function.update (Function.update (Function.update (Function.update P.board
          (kingHome P.turn) none) (rookHomeK P.turn) none)
          (kingHome P.turn + 2) (some ⟨P.turn, .king⟩))
          (kingHome P.turn + 1) (some ⟨P.turn, .rook⟩) := by
    unfold applyBoard
    rw [hflag]
  rw [heq]
  refine ⟨?_, ?_, ?_, ?_, ?_⟩
  · rw [Function.update_noteq d3, Function.update_noteq d2,
      Function.update_noteq d1, Function.update_same]
  · rw [Function.update_noteq d5, Function.update_noteq d4, Function.update_same]
  · rw [Function.update_noteq d6, Function.update_same]
  · rw [Function.update_same]
  · intro s h1 h2 h3 h4
    rw [Function.update_noteq h4, Function.update_noteq h3,
      Function.update_noteq h2, Function.update_noteq h1]

theorem applyBoard_castleQ (P : Position) (m : CMove) (hflag : m.flag = .castleQ) :
    applyBoard P.board P.turn m (kingHome P.turn) = none ∧
    applyBoard P.board P.turn m (rookHomeQ P.turn) = none ∧
    applyBoard P.board P.turn m (kingHome P.turn - 2) = some ⟨P.turn, .king⟩ ∧
    applyBoard P.board P.turn m (kingHome P.turn - 1) = some ⟨P.turn, .rook⟩ ∧
    (∀ s, s ≠ kingHome P.turn → s ≠ rookHomeQ P.turn → s ≠ kingHome P.turn - 2 →
      s ≠ kingHome P.turn - 1 → applyBoard P.board P.turn m s = P.board s) := by
  obtain ⟨d1, d2, d3, d4, d5, d6⟩ := castleQ_distinct P.turn
  have heq : applyBoard P.board P.turn m
      = Function.update (Function.update (Function.update (Function.update P.board
          (kingHome P.turn) none) (rookHomeQ P.turn) none)
          (kingHome P.turn - 2) (some ⟨P.turn, .king⟩))
          (kingHome P.turn - 1) (some ⟨P.turn, .rook⟩) := by
    unfold applyBoard
    rw [hflag]
  rw [heq]
  refine ⟨?_, ?_, ?_, ?_, ?_⟩
  · rw [Function.update_noteq d3, Function.update_noteq d2,
      Function.update_noteq d1, Function.update_same]
  · rw [Function.update_noteq d5, Function.update_noteq d4, Function.update_same]
  · rw [Function.update_noteq d6, Function.update_same]
  · rw [Function.update_same]
  · intro s h1 h2 h3 h4
    rw [Function.update_noteq h4, Function.update_noteq h3,
      Function.update_noteq h2, Function.update_noteq h1]

/-- A castling move turns some empty square into a piece of the mover in a way
that is always a king or a rook, never a pawn. -/
theorem castle_empty_val (P : Position) (m : CMove) (hs : MSpec P m)
    (hflag : m.flag = .castleK ∨ m.flag = .castleQ) (s : ℕ)
    (hempty : P.board s = none) :
    applyBoard P.board P.turn m s = none ∨
    applyBoard P.board P.turn m s = some ⟨P.turn, .king⟩ ∨
    applyBoard P.board P.turn m s = some ⟨P.turn, .rook⟩ := by
  rcases hflag with hflag | hflag
  · obtain ⟨nk, nr, nkt, nrt, frame⟩ := applyBoard_castleK P m hflag
    by_cases e1 : s = kingHome P.turn
    · rw [e1, nk]; exact Or.inl rfl
    · by_cases e2 : s = rookHomeK P.turn
      · rw [e2, nr]; exact Or.inl rfl
      · by_cases e3 : s = kingHome P.turn + 2
        · rw [e3, nkt]; exact Or.inr (Or.inl rfl)
        · by_cases e4 : s = kingHome P.turn + 1
          · rw [e4, nrt]; exact Or.inr (Or.inr rfl)
          · rw [frame s e1 e2 e3 e4, hempty]; exact Or.inl rfl
  · obtain ⟨nk, nr, nkt, nrt, frame⟩ := applyBoard_castleQ P m hflag
    by_cases e1 : s = kingHome P.turn
    · rw [e1, nk]; exact Or.inl rfl
    · by_cases e2 : s = rookHomeQ P.turn
      · rw [e2, nr]; exact Or.inl rfl
      · by_cases e3 : s = kingHome P.turn - 2
        · rw [e3, nkt]; exact Or.inr (Or.inl rfl)
        · by_cases e4 : s = kingHome P.turn - 1
          · rw [e4, nrt]; exact Or.inr (Or.inr rfl)
          · rw [frame s e1 e2 e3 e4, hempty]; exact Or.inl rfl

/-- A castling move creates two occupied squares that were empty before. -/
theorem castle_two_filled (P : Position) (m : CMove) (hs : MSpec P m)
    (hflag : m.flag = .castleK ∨ m.flag = .castleQ) :
    ∃ u v, u ≠ v ∧ P.board u = none ∧ P.board v = none ∧
      (∃ x, applyBoard P.board P.turn m u = some x) ∧
      (∃ y, applyBoard P.board P.turn m v = some y) := by
  obtain ⟨_, _, _, _, hspec⟩ := hs
  rcases hflag with hflag | hflag
  · obtain ⟨_, _, nkt, nrt, _⟩ := applyBoard_castleK P m hflag
    rw [hflag] at hspec
    obtain ⟨_, _, _, _, hkt1, hkt2⟩ := hspec
    exact ⟨kingHome P.turn + 2, kingHome P.turn + 1,
      (castleK_distinct P.turn).2.2.2.2.2, hkt2, hkt1, ⟨_, nkt⟩, ⟨_, nrt⟩⟩
  · obtain ⟨_, _, nkt, nrt, _⟩ := applyBoard_castleQ P m hflag
    rw [hflag] at hspec
    obtain ⟨_, _, _, _, hkt1, hkt2, _⟩ := hspec
    exact ⟨kingHome P.turn - 2, kingHome P.turn - 1,
      (castleQ_distinct P.turn).2.2.2.2.2, hkt2, hkt1, ⟨_, nkt⟩, ⟨_, nrt⟩⟩

/- ===================== theorems: a move is determined by its effect ===================== -/

theorem msimple_to (P : Position) (m : CMove) (hs : MSpec P m)
    (hf : m.flag = .normal ∨ m.flag = .pawnTwo) :
    P.board m.toSq = none ∨ ∃ q, P.board m.toSq = some q ∧ q.pcolor = P.turn.other := by
  obtain ⟨_, _, _, _, hspec⟩ := hs
  rcases hf with h | h <;> rw [h] at hspec <;> exact hspec

theorem mep_facts (P : Position) (m : CMove) (hs : MSpec P m)
    (hf : m.flag = .enPassant) :
    P.board m.toSq = none ∧ epCapSq P.turn m.toSq ≠ m.fromSq ∧
    epCapSq P.turn m.toSq ≠ m.toSq ∧
    P.board (epCapSq P.turn m.toSq) = some ⟨P.turn.other, .pawn⟩ := by
  obtain ⟨_, _, _, _, hspec⟩ := hs
  rw [hf] at hspec
  exact ⟨hspec.1, hspec.2.2.1, hspec.2.2.2.1, hspec.2.2.2.2⟩

theorem mcastle_fromto (P : Position) (m : CMove) (hs : MSpec P m) :
    (m.flag = .castleK → m.fromSq = kingHome P.turn ∧ m.toSq = kingHome P.turn + 2) ∧
    (m.flag = .castleQ → m.fromSq = kingHome P.turn ∧ m.toSq = kingHome P.turn - 2) := by
  obtain ⟨_, _, _, _, hspec⟩ := hs
  constructor <;> intro hf <;> rw [hf] at hspec
  · exact ⟨hspec.1, hspec.2.1⟩
  · exact ⟨hspec.1, hspec.2.1⟩

theorem uniq_simple_simple (P : Position) (m1 m2 : CMove) (h1 : MSpec P m1)
    (h2 : MSpec P m2) (hf1 : m1.flag = .normal ∨ m1.flag = .pawnTwo)
    (hf2 : m2.flag = .normal ∨ m2.flag = .pawnTwo)
    (hb : applyBoard P.board P.turn m1 = applyBoard P.board P.turn m2) :
    m1.fromSq = m2.fromSq ∧ m1.toSq = m2.toSq := by
  obtain ⟨n1f, n1t, fr1⟩ := applyBoard_simple P m1 h1 hf1
  obtain ⟨n2f, n2t, fr2⟩ := applyBoard_simple P m2 h2 hf2
  obtain ⟨pk1, hfrom1⟩ := h1.2.2.2.1
  have hto1 := msimple_to P m1 h1 hf1
  constructor
  · by_contra hne
    by_cases hcase : m1.fromSq = m2.toSq
    · have hx := congrFun hb m1.fromSq
      rw [n1f, hcase, n2t] at hx
      exact absurd hx (by simp)
    · have hx := congrFun hb m1.fromSq
      rw [n1f, fr2 m1.fromSq hne hcase, hfrom1] at hx
      exact absurd hx (by simp)
  · by_contra hne
    by_cases hcase : m1.toSq = m2.fromSq
    · have hx := congrFun hb m1.toSq
      rw [n1t, hcase, n2f] at hx
      exact absurd hx (by simp)
    · have hx := congrFun hb m1.toSq
      rw [n1t, fr2 m1.toSq hcase hne] at hx
      rcases hto1 with hn | ⟨q, hq, hc⟩
      · rw [hn] at hx
        exact absurd hx (by simp)
      · rw [hq, Option.some_inj] at hx
        have hcol : P.turn = P.turn.other := by
          rw [← hc, ← hx]
          exact (promoted_pcolor P.turn m1).symm
        exact other_ne P.turn hcol.symm

theorem uniq_simple_ep (P : Position) (m1 m2 : CMove) (h1 : MSpec P m1)
    (h2 : MSpec P m2) (hf1 : m1.flag = .normal ∨ m1.flag = .pawnTwo)
    (hf2 : m2.flag = .enPassant)
    (hb : applyBoard P.board P.turn m1 = applyBoard P.board P.turn m2) : False := by
  obtain ⟨n1f, n1t, fr1⟩ := applyBoard_simple P m1 h1 hf1
  obtain ⟨_, _, n2c, _⟩ := applyBoard_ep P m2 h2 hf2
  obtain ⟨_, _, _, hcap2⟩ := mep_facts P m2 h2 hf2
  obtain ⟨pk1, hfrom1⟩ := h1.2.2.2.1
  have hx := congrFun hb (epCapSq P.turn m2.toSq)
  rw [n2c] at hx
  by_cases e1 : epCapSq P.turn m2.toSq = m1.fromSq
  · rw [e1, hfrom1, Option.some_inj] at hcap2
    have : P.turn = P.turn.other := congrArg Piece.pcolor hcap2
    exact other_ne P.turn this.symm
  · by_cases e2 : epCapSq P.turn m2.toSq = m1.toSq
    · rw [e2, n1t] at hx
      exact absurd hx (by simp)
    · rw [fr1 _ e1 e2, hcap2] at hx
      exact absurd hx (by simp)

theorem uniq_simple_castle (P : Position) (m1 m2 : CMove) (h1 : MSpec P m1)
    (h2 : MSpec P m2) (hf1 : m1.flag = .normal ∨ m1.flag = .pawnTwo)
    (hf2 : m2.flag = .castleK ∨ m2.flag = .castleQ)
    (hb : applyBoard P.board P.turn m1 = applyBoard P.board P.turn m2) : False := by
  obtain ⟨n1f, n1t, fr1⟩ := applyBoard_simple P m1 h1 hf1
  obtain ⟨u, v, huv, hu0, hv0, ⟨x, hux⟩, ⟨y, hvy⟩⟩ := castle_two_filled P m2 h2 hf2
  have hu_t1 : u = m1.toSq := by
    by_contra hne
    have hx := congrFun hb u
    rw [hux] at hx
    by_cases e1 : u = m1.fromSq
    · rw [e1, n1f] at hx
      exact absurd hx (by simp)
    · rw [fr1 u e1 hne, hu0] at hx
      exact absurd hx (by simp)
  have hv_t1 : v = m1.toSq := by
    by_contra hne
    have hx := congrFun hb v
    rw [hvy] at hx
    by_cases e1 : v = m1.fromSq
    · rw [e1, n1f] at hx
      exact absurd hx (by simp)
    · rw [fr1 v e1 hne, hv0] at hx
      exact absurd hx (by simp)
  exact huv (hu_t1.trans hv_t1.symm)

theorem uniq_ep_ep (P : Position) (m1 m2 : CMove) (h1 : MSpec P m1)
    (h2 : MSpec P m2) (hf1 : m1.flag = .enPassant) (hf2 : m2.flag = .enPassant)
    (hb : applyBoard P.board P.turn m1 = applyBoard P.board P.turn m2) :
    m1.fromSq = m2.fromSq ∧ m1.toSq = m2.toSq := by
  obtain ⟨n1f, n1t, n1c, fr1⟩ := applyBoard_ep P m1 h1 hf1
  obtain ⟨n2f, n2t, n2c, fr2⟩ := applyBoard_ep P m2 h2 hf2
  obtain ⟨hbt1, _, _, _⟩ := mep_facts P m1 h1 hf1
  obtain ⟨_, _, _, hcap2⟩ := mep_facts P m2 h2 hf2
  obtain ⟨pk1, hfrom1⟩ := h1.2.2.2.1
  have hto : m1.toSq = m2.toSq := by
    by_contra hne
    have hx := congrFun hb m1.toSq
    rw [n1t] at hx
    by_cases e1 : m1.toSq = m2.fromSq
    · rw [e1, n2f] at hx
      exact absurd hx (by simp)
    · by_cases e3 : m1.toSq = epCapSq P.turn m2.toSq
      · rw [e3, n2c] at hx
        exact absurd hx (by simp)
      · rw [fr2 _ e1 hne e3, hbt1] at hx
        exact absurd hx (by simp)
  have hfrom : m1.fromSq = m2.fromSq := by
    by_contra hne
    have hx := congrFun hb m1.fromSq
    rw [n1f] at hx
    by_cases e1 : m1.fromSq = m2.toSq
    · rw [e1, n2t] at hx
      exact absurd hx (by simp)
    · by_cases e3 : m1.fromSq = epCapSq P.turn m2.toSq
      · rw [e3, hcap2, Option.some_inj] at hfrom1
        have : P.turn.other = P.turn := congrArg Piece.pcolor hfrom1
        exact other_ne P.turn this
      · rw [fr2 _ hne e1 e3, hfrom1] at hx
        exact absurd hx (by simp)
  exact ⟨hfrom, hto⟩

theorem uniq_ep_castle (P : Position) (m1 m2 : CMove) (h1 : MSpec P m1)
    (h2 : MSpec P m2) (hf1 : m1.flag = .enPassant)
    (hf2 : m2.flag = .castleK ∨ m2.flag = .castleQ)
    (hb : applyBoard P.board P.turn m1 = applyBoard P.board P.turn m2) : False := by
  obtain ⟨_, n1t, _, _⟩ := applyBoard_ep P m1 h1 hf1
  obtain ⟨hbt1, _, _, _⟩ := mep_facts P m1 h1 hf1
  have hx := congrFun hb m1.toSq
  rw [n1t] at hx
  rcases castle_empty_val P m2 h2 hf2 m1.toSq hbt1 with h | h | h <;> rw [h] at hx <;>
    exact absurd hx (by simp)

theorem khp1_notin_Q (c : PieceColor) :
    kingHome c + 1 ≠ kingHome c ∧ kingHome c + 1 ≠ rookHomeQ c ∧
    kingHome c + 1 ≠ kingHome c - 2 ∧ kingHome c + 1 ≠ kingHome c - 1 := by
  cases c <;> decide

theorem uniq_cK_cQ (P : Position) (m1 m2 : CMove) (h1 : MSpec P m1)
    (h2 : MSpec P m2) (hf1 : m1.flag = .castleK) (hf2 : m2.flag = .castleQ)
    (hb : applyBoard P.board P.turn m1 = applyBoard P.board P.turn m2) : False := by
  obtain ⟨_, _, _, nrt1, _⟩ := applyBoard_castleK P m1 hf1
  obtain ⟨_, _, _, _, fr2⟩ := applyBoard_castleQ P m2 hf2
  obtain ⟨e1, e2, e3, e4⟩ := khp1_notin_Q P.turn
  have hempty : P.board (kingHome P.turn + 1) = none := by
    obtain ⟨_, _, _, _, hspec⟩ := h1
    rw [hf1] at hspec
    exact hspec.2.2.2.2.1
  have hx := congrFun hb (kingHome P.turn + 1)
  rw [nrt1, fr2 _ e1 e2 e3 e4, hempty] at hx
  exact absurd hx (by simp)

theorem move_unique (P : Position) (m1 m2 : CMove) (h1 : MSpec P m1)
    (h2 : MSpec P m2)
    (hb : applyBoard P.board P.turn m1 = applyBoard P.board P.turn m2) :
    m1.fromSq = m2.fromSq ∧ m1.toSq = m2.toSq := by
  have cls : ∀ m : CMove, (m.flag = .normal ∨ m.flag = .pawnTwo) ∨
      m.flag = .enPassant ∨ m.flag = .castleK ∨ m.flag = .castleQ := by
    intro m
    cases m.flag
    · exact Or.inl (Or.inl rfl)
    · exact Or.inl (Or.inr rfl)
    · exact Or.inr (Or.inl rfl)
    · exact Or.inr (Or.inr (Or.inl rfl))
    · exact Or.inr (Or.inr (Or.inr rfl))
  rcases cls m1 with hf1 | hf1 | hf1 | hf1 <;> rcases cls m2 with hf2 | hf2 | hf2 | hf2
  · exact uniq_simple_simple P m1 m2 h1 h2 hf1 hf2 hb
  · exact (uniq_simple_ep P m1 m2 h1 h2 hf1 hf2 hb).elim
  · exact (uniq_simple_castle P m1 m2 h1 h2 hf1 (Or.inl hf2) hb).elim
  · exact (uniq_simple_castle P m1 m2 h1 h2 hf1 (Or.inr hf2) hb).elim
  · exact (uniq_simple_ep P m2 m1 h2 h1 hf2 hf1 hb.symm).elim
  · exact uniq_ep_ep P m1 m2 h1 h2 hf1 hf2 hb
  · exact (uniq_ep_castle P m1 m2 h1 h2 hf1 (Or.inl hf2) hb).elim
  · exact (uniq_ep_castle P m1 m2 h1 h2 hf1 (Or.inr hf2) hb).elim
  · exact (uniq_simple_castle P m2 m1 h2 h1 hf2 (Or.inl hf1) hb.symm).elim
  · exact (uniq_ep_castle P m2 m1 h2 h1 hf2 (Or.inl hf1) hb.symm).elim
  · obtain ⟨hA, _⟩ := mcastle_fromto P m1 h1
    obtain ⟨hB, _⟩ := mcastle_fromto P m2 h2
    obtain ⟨a1, a2⟩ := hA hf1
    obtain ⟨b1, b2⟩ := hB hf2
    exact ⟨by rw [a1, b1], by rw [a2, b2]⟩
  · exact (uniq_cK_cQ P m1 m2 h1 h2 hf1 hf2 hb).elim
  · exact (uniq_simple_castle P m2 m1 h2 h1 hf2 (Or.inr hf1) hb.symm).elim
  · exact (uniq_ep_castle P m2 m1 h2 h1 hf2 (Or.inr hf1) hb.symm).elim
  · exact (uniq_cK_cQ P m2 m1 h2 h1 hf2 hf1 hb.symm).elim
  · obtain ⟨_, hA⟩ := mcastle_fromto P m1 h1
    obtain ⟨_, hB⟩ := mcastle_fromto P m2 h2
    obtain ⟨a1, a2⟩ := hA hf1
    obtain ⟨b1, b2⟩ := hB hf2
    exact ⟨by rw [a1, b1], by rw [a2, b2]⟩

/- ===================== theorems: FEN placement roundtrip ===================== -/

theorem flag_classes (m : CMove) : (m.flag = .normal ∨ m.flag = .pawnTwo) ∨
    m.flag = .enPassant ∨ m.flag = .castleK ∨ m.flag = .castleQ := by
  cases m.flag
  · exact Or.inl (Or.inl rfl)
  · exact Or.inl (Or.inr rfl)
  · exact Or.inr (Or.inl rfl)
  · exact Or.inr (Or.inr (Or.inl rfl))
  · exact Or.inr (Or.inr (Or.inr rfl))

theorem digitChar_facts (k : ℕ) (h1 : 1 ≤ k) (h2 : k ≤ 8) :
    ('1' ≤ digitChar k ∧ digitChar k ≤ '8') ∧ charPiece (digitChar k) = none ∧
    (digitChar k).toNat - ('0').toNat = k ∧ digitChar k ≠ '/' ∧ digitChar k ≠ ' ' := by
  interval_cases k <;> decide

theorem pieceChar_facts (pc : Piece) :
    ¬('1' ≤ pieceChar pc ∧ pieceChar pc ≤ '8') ∧ charPiece (pieceChar pc) = some pc ∧
    pieceChar pc ≠ '/' ∧ pieceChar pc ≠ ' ' := by
  rcases pc with ⟨c, k⟩
  cases c <;> cases k <;> decide

theorem decode_encode : ∀ (cells : List (Option Piece)) (pending : ℕ)
    (acc : List (Option Piece)), acc.length + pending + cells.length = 8 →
    decodeRank (encodeRank cells pending) false acc
      = some (acc ++ List.replicate pending none ++ cells) := by
  intro cells
  induction cells with
  | nil =>
    intro pending acc h
    cases pending with
    | zero =>
      simp only [encodeRank, decodeRank]
      have hlen : acc.length = 8 := by simpa using h
      simp [hlen]
    | succ n =>
      obtain ⟨hd1, hd2, hd3, _, _⟩ := digitChar_facts (n + 1) (by omega) (by omega)
      simp only [encodeRank, decodeRank]
      rw [if_pos hd1, if_neg (by simp), hd3]
      have hlen : (acc ++ List.replicate (n + 1) none).length = 8 := by
        simp at h ⊢
        omega
      simp [decodeRank, hlen]
  | cons cell rest ih =>
    intro pending acc h
    cases cell with
    | none =>
      show decodeRank (encodeRank rest (pending + 1)) false acc = _
      rw [ih (pending + 1) acc (by simp at h ⊢; omega)]
      congr 1
      rw [List.replicate_succ']
      simp
    | some pc =>
      cases pending with
      | zero =>
        obtain ⟨hp1, hp2, _, _⟩ := pieceChar_facts pc
        simp only [encodeRank, decodeRank]
        rw [if_neg hp1, hp2]
        show decodeRank (encodeRank rest 0) false (acc ++ [some pc]) = _
        rw [ih 0 (acc ++ [some pc]) (by simp at h ⊢; omega)]
        simp [List.append_assoc]
      | succ n =>
        obtain ⟨hd1, hd2, hd3, _, _⟩ := digitChar_facts (n + 1) (by omega) (by omega)
        obtain ⟨hp1, hp2, _, _⟩ := pieceChar_facts pc
        simp only [encodeRank, decodeRank]
        rw [if_pos hd1, if_neg (by simp), hd3]
        rw [if_neg hp1, hp2]
        show decodeRank (encodeRank rest 0) false
          (acc ++ List.replicate (n + 1) none ++ [some pc]) = _
        rw [ih 0 (acc ++ List.replicate (n + 1) none ++ [some pc])
          (by simp at h ⊢; omega)]
        simp

theorem decodeRank_encodeRank (cells : List (Option Piece)) (h : cells.length = 8) :
    decodeRank (encodeRank cells 0) false [] = some cells := by
  have := decode_encode cells 0 [] (by simp [h])
  simpa using this

theorem encodeRank_chars : ∀ (cells : List (Option Piece)) (pending : ℕ),
    pending + cells.length ≤ 8 →
    ∀ ch ∈ encodeRank cells pending, ch ≠ '/' ∧ ch ≠ ' ' := by
  intro cells
  induction cells with
  | nil =>
    intro pending h ch hch
    cases pending with
    | zero => simp [encodeRank] at hch
    | succ n =>
      obtain ⟨_, _, _, h4, h5⟩ := digitChar_facts (n + 1) (by omega) (by simpa using h)
      simp [encodeRank] at hch
      rw [hch]
      exact ⟨h4, h5⟩
  | cons cell rest ih =>
    intro pending h ch hch
    cases cell with
    | none =>
      exact ih (pending + 1) (by simp at h ⊢; omega) ch hch
    | some pc =>
      obtain ⟨_, _, hp3, hp4⟩ := pieceChar_facts pc
      cases pending with
      | zero =>
        simp only [encodeRank] at hch
        rcases List.mem_cons.mp hch with hch | hch
        · rw [hch]; exact ⟨hp3, hp4⟩
        · exact ih 0 (by simp at h ⊢; omega) ch hch
      | succ n =>
        obtain ⟨_, _, _, hd4, hd5⟩ := digitChar_facts (n + 1) (by omega)
          (by simp at h; omega)
        simp only [encodeRank] at hch
        rcases List.mem_cons.mp hch with hch | hch
        · rw [hch]; exact ⟨hd4, hd5⟩
        · rcases List.mem_cons.mp hch with hch | hch
          · rw [hch]; exact ⟨hp3, hp4⟩
          · exact ih 0 (by simp at h ⊢; omega) ch hch

theorem mapM_decode (L : List (List (Option Piece)))
    (h : ∀ cells ∈ L, cells.length = 8) :
    (L.map (fun cells => encodeRank cells 0)).mapM (fun rs => decodeRank rs false [])
      = some L := by
  induction L with
  | nil => rfl
  | cons a t ih =>
    simp only [List.map_cons, List.mapM_cons]
    rw [decodeRank_encodeRank a (h a (List.mem_cons_self a t)),
      ih (fun c hc => h c (List.mem_cons_of_mem a hc))]
    rfl

theorem getD_map_reverse_range (g : ℕ → List (Option Piece)) (r : ℕ) (hr : r < 8) :
    ((List.range 8).reverse.map g).getD (7 - r) [] = g r := by
  have h8 : 7 - r < ((List.range 8).reverse.map g).length := by
    simp only [List.length_map, List.length_reverse, List.length_range]
    omega
  rw [List.getD_eq_getElem _ _ h8, List.getElem_map, List.getElem_reverse,
    List.getElem_range]
  congr 1
  simp only [List.length_range]
  omega

theorem getD_rankCells (b : Board) (r f : ℕ) (hf : f < 8) :
    (rankCells b r).getD f none = b (r * 8 + f) := by
  unfold rankCells
  have h8 : f < ((List.range 8).map fun f => b (r * 8 + f)).length := by
    simpa using hf
  rw [List.getD_eq_getElem _ _ h8, List.getElem_map, List.getElem_range]

theorem cellsBoard_ranks (b : Board) (hOK : BoardOK b) :
    cellsBoard ((List.range 8).reverse.map (rankCells b)) = b := by
  funext sq
  unfold cellsBoard
  by_cases h64 : sq < 64
  · rw [if_pos h64]
    have hr : rankOf sq < 8 := by unfold rankOf; omega
    have hf : fileOf sq < 8 := by unfold fileOf; omega
    rw [getD_map_reverse_range (rankCells b) (rankOf sq) hr,
      getD_rankCells b _ _ hf]
    congr 1
    unfold rankOf fileOf
    omega
  · rw [if_neg h64]
    exact (hOK sq (by omega)).symm

theorem parseBoard_fenBoard (b : Board) (hOK : BoardOK b) :
    parseBoard (fenBoard b) = some b := by
  have hlen8 : ∀ cells ∈ (List.range 8).reverse.map (rankCells b), cells.length = 8 := by
    intro cells hc
    rw [List.mem_map] at hc
    obtain ⟨r, _, hr⟩ := hc
    rw [← hr]
    simp [rankCells]
  have hmapeq : ((List.range 8).reverse).map (fun r => encodeRank (rankCells b r) 0)
      = ((List.range 8).reverse.map (rankCells b)).map (fun cells => encodeRank cells 0) := by
    rw [List.map_map]
    rfl
  have hchars : ∀ l ∈ ((List.range 8).reverse.map (rankCells b)).map
      (fun cells => encodeRank cells 0), ('/') ∉ l := by
    intro l hl hmem
    rw [List.mem_map] at hl
    obtain ⟨cells, hcmem, hcl⟩ := hl
    have hb := encodeRank_chars cells 0 (by rw [hlen8 cells hcmem]) ('/')
      (by rw [hcl]; exact hmem)
    exact hb.1 rfl
  have hne : ((List.range 8).reverse.map (rankCells b)).map
      (fun cells => encodeRank cells 0) ≠ [] := by simp
  unfold fenBoard parseBoard
  rw [hmapeq]
  rw [List.splitOn_intercalate _ '/' hchars hne, mapM_decode _ hlen8]
  show (if ((List.range 8).reverse.map (rankCells b)).length = 8
      then some (cellsBoard ((List.range 8).reverse.map (rankCells b))) else none)
      = some b
  rw [if_pos (by simp), cellsBoard_ranks b hOK]

theorem applyBoard_OK (P : Position) (m : CMove) (hs : MSpec P m)
    (hOK : BoardOK P.board) : BoardOK (applyBoard P.board P.turn m) := by
  intro i hi
  have hif : i ≠ m.fromSq := by have := hs.1; omega
  have hit : i ≠ m.toSq := by have := hs.2.1; omega
  rcases flag_classes m with hf | hf | hf | hf
  · obtain ⟨_, _, fr⟩ := applyBoard_simple P m hs hf
    rw [fr i hif hit]
    exact hOK i hi
  · obtain ⟨_, _, _, fr⟩ := applyBoard_ep P m hs hf
    have hspec := hs.2.2.2.2
    rw [hf] at hspec
    have hic : i ≠ epCapSq P.turn m.toSq := by
      have := hspec.2.1
      omega
    rw [fr i hif hit hic]
    exact hOK i hi
  · obtain ⟨_, _, _, _, fr⟩ := applyBoard_castleK P m hf
    have hb : kingHome P.turn < 64 ∧ rookHomeK P.turn < 64 ∧
        kingHome P.turn + 2 < 64 ∧ kingHome P.turn + 1 < 64 := by
      cases P.turn <;> decide
    rw [fr i (by omega) (by omega) (by omega) (by omega)]
    exact hOK i hi
  · obtain ⟨_, _, _, _, fr⟩ := applyBoard_castleQ P m hf
    have hb : kingHome P.turn < 64 ∧ rookHomeQ P.turn < 64 ∧
        kingHome P.turn - 2 < 64 ∧ kingHome P.turn - 1 < 64 := by
      cases P.turn <;> decide
    rw [fr i (by omega) (by omega) (by omega) (by omega)]
    exact hOK i hi

theorem fenBoard_inj (b1 b2 : Board) (h1 : BoardOK b1) (h2 : BoardOK b2)
    (h : fenBoard b1 = fenBoard b2) : b1 = b2 := by
  have r1 := parseBoard_fenBoard b1 h1
  rw [h, parseBoard_fenBoard b2 h2, Option.some_inj] at r1
  exact r1.symm

/- ===================== theorems: C2 move inference ===================== -/

theorem intercalate_cons2 (sep a b : Str) (t : List Str) :
    List.intercalate sep (a :: b :: t) = a ++ sep ++ List.intercalate sep (b :: t) := by
  simp [List.intercalate, List.intersperse]

theorem mem_intercalate (sep : Str) :
    ∀ (L : List Str) (ch : Char), ch ∈ List.intercalate sep L →
      ch ∈ sep ∨ ∃ l ∈ L, ch ∈ l := by
  intro L
  induction L with
  | nil => intro ch h; simp [List.intercalate] at h
  | cons a t ih =>
    intro ch h
    cases t with
    | nil =>
      simp [List.intercalate] at h
      exact Or.inr ⟨a, List.mem_cons_self a [], h⟩
    | cons b t2 =>
      rw [intercalate_cons2] at h
      rcases List.mem_append.mp h with h | h
      · rcases List.mem_append.mp h with h | h
        · exact Or.inr ⟨a, List.mem_cons_self a _, h⟩
        · exact Or.inl h
      · rcases ih ch h with h | ⟨l, hl, hc⟩
        · exact Or.inl h
        · exact Or.inr ⟨l, List.mem_cons_of_mem a hl, hc⟩

theorem fenBoard_no_space (b : Board) : ∀ ch ∈ fenBoard b, ch ≠ ' ' := by
  intro ch hch
  unfold fenBoard at hch
  rcases mem_intercalate ['/'] _ ch hch with h | ⟨l, hl, hc⟩
  · simp at h
    rw [h]
    decide
  · rw [List.mem_map] at hl
    obtain ⟨r, _, hr⟩ := hl
    have hlen : (rankCells b r).length = 8 := by simp [rankCells]
    have := encodeRank_chars (rankCells b r) 0 (by rw [hlen]) ch (by rw [hr]; exact hc)
    exact this.2

theorem splitOn_space_first (A rest : Str) (h : ∀ ch ∈ A, ch ≠ ' ') :
    ((A ++ ' ' :: rest).splitOn ' ').getD 0 [] = A := by
  show ((A ++ ' ' :: rest).splitOnP (fun c => c == ' ')).getD 0 [] = A
  rw [List.splitOnP_first _ _ (by intro x hx; simpa using h x hx) ' ' (by simp)]
  rfl

theorem fenPos_placement (X : Position) :
    ((fenPos X).splitOn ' ').getD 0 [] = fenBoard X.board := by
  unfold fenPos
  exact splitOn_space_first _ _ (fenBoard_no_space X.board)

theorem parseBoard_OK (s : Str) (b : Board) (h : parseBoard s = some b) :
    BoardOK b := by
  unfold parseBoard at h
  split at h
  · split at h
    · rw [Option.some_inj] at h
      intro i hi
      rw [← h]
      unfold cellsBoard
      rw [if_neg (by omega)]
    · exact absurd h (by simp)
  · exact absurd h (by simp)

theorem parseFen_OK (s : Str) (P : Position) (h : parseFen s = some P) :
    BoardOK P.board := by
  unfold parseFen at h
  split at h
  · rename_i pl t c ep hm fm
    split at h
    · rename_i b turn cr hb hturn hcr
      split at h
      · rename_i eps hmv fmv hep hhm hfm
        rw [Option.some_inj] at h
        rw [← h]
        exact parseBoard_OK _ b hb
      · exact absurd h (by simp)
    · exact absurd h (by simp)
  · exact absurd h (by simp)

theorem apply_from_none (P : Position) (m : CMove) (hs : MSpec P m) :
    applyBoard P.board P.turn m m.fromSq = none := by
  rcases flag_classes m with hf | hf | hf | hf
  · exact (applyBoard_simple P m hs hf).1
  · exact (applyBoard_ep P m hs hf).1
  · have hk := (applyBoard_castleK P m hf).1
    have he := ((mcastle_fromto P m hs).1 hf).1
    rw [he]
    exact hk
  · have hk := (applyBoard_castleQ P m hf).1
    have he := ((mcastle_fromto P m hs).2 hf).1
    rw [he]
    exact hk

/-- C2: for every well-formed position (an arbitrary FEN string that the rules
engine parses, with a canonically-written placement field) and every legal move
`m` from it, move inference between the position and the position obtained by
applying `m` returns exactly `m`: the same origin square and the same
destination square. Inference is a pure function of its two arguments, so the
result is reproducible under the same inputs. -/
theorem C2_infer_round_trip (oldFen : Str) (P : Position) (m : CMove)
    (hp : parseFen oldFen = some P)
    (hpl : (oldFen.splitOn ' ').getD 0 [] = fenBoard P.board)
    (hm : m ∈ legalMoves P) :
    detectMove oldFen (fenPos (applyMove P m))
      = some ⟨squareName m.fromSq, squareName m.toSq⟩ := by
  have hOK : BoardOK P.board := parseFen_OK oldFen P hp
  have hspec : MSpec P m := legalMoves_spec P hOK m hm
  have hOKm : BoardOK (applyMove P m).board := applyBoard_OK P m hspec hOK
  have hnew : ((fenPos (applyMove P m)).splitOn ' ').getD 0 []
      = fenBoard (applyMove P m).board := fenPos_placement (applyMove P m)
  have hneq : ¬ ((oldFen.splitOn ' ').getD 0 []
      = ((fenPos (applyMove P m)).splitOn ' ').getD 0 []) := by
    rw [hpl, hnew]
    intro heq
    have hbeq : P.board = (applyMove P m).board := fenBoard_inj _ _ hOK hOKm heq
    obtain ⟨pk, hfrom⟩ := hspec.2.2.2.1
    have hnone : (applyMove P m).board m.fromSq = none := apply_from_none P m hspec
    rw [hbeq, hnone] at hfrom
    exact absurd hfrom (by simp)
  have hdet : detectMove oldFen (fenPos (applyMove P m)) =
      (if (oldFen.splitOn ' ').getD 0 []
          = ((fenPos (applyMove P m)).splitOn ' ').getD 0 []
       then none
       else match (legalMoves P).find? (fun mv =>
          fenBoard (applyMove P mv).board
            == ((fenPos (applyMove P m)).splitOn ' ').getD 0 []) with
        | some mv => some ⟨squareName mv.fromSq, squareName mv.toSq⟩
        | none => none) := by
    unfold detectMove
    rw [hp]
  rw [hdet, if_neg hneq]
  have hself : (fun mv => fenBoard (applyMove P mv).board
      == ((fenPos (applyMove P m)).splitOn ' ').getD 0 []) m = true := by
    rw [hnew]
    simp
  have hsome : ((legalMoves P).find? (fun mv => fenBoard (applyMove P mv).board
      == ((fenPos (applyMove P m)).splitOn ' ').getD 0 [])).isSome := by
    rw [List.find?_isSome]
    exact ⟨m, hm, hself⟩
  obtain ⟨mv, hmv⟩ := Option.isSome_iff_exists.mp hsome
  have hpmv := List.find?_some hmv
  have hmemv := List.mem_of_find?_eq_some hmv
  have hspecv : MSpec P mv := legalMoves_spec P hOK mv hmemv
  have hOKv : BoardOK (applyMove P mv).board := applyBoard_OK P mv hspecv hOK
  have hbeq : fenBoard (applyMove P mv).board = fenBoard (applyMove P m).board := by
    rw [hnew] at hpmv
    simpa using hpmv
  have hb : applyBoard P.board P.turn mv = applyBoard P.board P.turn m :=
    fenBoard_inj _ _ hOKv hOKm hbeq
  obtain ⟨hfr, hto⟩ := move_unique P mv m hspecv hspec hb
  rw [hmv]
  show (some ⟨squareName mv.fromSq, squareName mv.toSq⟩ : Option MoveRef)
      = some ⟨squareName m.fromSq, squareName m.toSq⟩
  rw [hfr, hto]

theorem C2_infer_round_trip_witness :
    (parseFen (str "4k3/8/8/8/8/8/4P3/4K3 w - - 0 1")).map
        (fun P => detectMove (str "4k3/8/8/8/8/8/4P3/4K3 w - - 0 1")
          (fenPos (applyMove P ⟨12, 28, .pawn, none, .pawnTwo⟩)))
      = some (some ⟨str "e2", str "e4"⟩) := by
  cases hp : parseFen (str "4k3/8/8/8/8/8/4P3/4K3 w - - 0 1") with
  | none =>
    have hs : (parseFen (str "4k3/8/8/8/8/8/4P3/4K3 w - - 0 1")).isSome = true := by
      decide
    rw [hp] at hs
    simp at hs
  | some P =>
    have hpl : ((str "4k3/8/8/8/8/8/4P3/4K3 w - - 0 1").splitOn ' ').getD 0 []
        = fenBoard P.board := by
      have h1 : (parseFen (str "4k3/8/8/8/8/8/4P3/4K3 w - - 0 1")).map
          (fun Q => (((str "4k3/8/8/8/8/8/4P3/4K3 w - - 0 1").splitOn ' ').getD 0 []
            == fenBoard Q.board)) = some true := by decide
      rw [hp] at h1
      simpa using h1
    have hm : (⟨12, 28, .pawn, none, .pawnTwo⟩ : CMove) ∈ legalMoves P := by
      have h2 : (parseFen (str "4k3/8/8/8/8/8/4P3/4K3 w - - 0 1")).map
          (fun Q => decide ((⟨12, 28, .pawn, none, .pawnTwo⟩ : CMove) ∈ legalMoves Q))
          = some true := by decide
      rw [hp] at h2
      simpa using h2
    show some (detectMove (str "4k3/8/8/8/8/8/4P3/4K3 w - - 0 1")
        (fenPos (applyMove P ⟨12, 28, .pawn, none, .pawnTwo⟩))) = _
    rw [C2_infer_round_trip _ P _ hp hpl hm]
    decide

/-- C10: every move entered through the local move interface supplies queen as
the promotion choice: the move the rules engine selects for
`move(\x7b from, to, promotion: q \x7d)` either is not a promotion or promotes
to a queen, and is never an underpromotion to a rook, bishop or knight; the
resulting position published by `handleManualMove` is the one reached by that
move. -/
theorem C10_promotion_queen (P : Position) (f t : ℕ) (m : CMove)
    (h : jsMove P f t PieceKind.queen = some m) :
    ((m.promo = none ∨ m.promo = some PieceKind.queen) ∧
      m.promo ≠ some PieceKind.rook ∧ m.promo ≠ some PieceKind.bishop ∧
      m.promo ≠ some PieceKind.knight) ∧
    handleManualMove P f t = some (applyMove P m) := by
  have hpred := List.find?_some h
  constructor
  · cases hpromo : m.promo with
    | none =>
      refine ⟨Or.inl rfl, ?_, ?_, ?_⟩ <;> simp
    | some pk =>
      rw [hpromo] at hpred
      simp only [Bool.and_eq_true, beq_iff_eq] at hpred
      have hq : pk = PieceKind.queen := hpred.2
      rw [hq]
      refine ⟨Or.inr rfl, ?_, ?_, ?_⟩ <;> simp
  · unfold handleManualMove
    rw [h]
    rfl

theorem C10_promotion_queen_witness :
    (parseFen (str "4k3/1P6/8/8/8/8/8/4K3 w - - 0 1")).map
        (fun P => (jsMove P 49 57 PieceKind.queen).map
          (fun m => decide ((m.promo = none ∨ m.promo = some PieceKind.queen) ∧
              m.promo ≠ some PieceKind.rook ∧ m.promo ≠ some PieceKind.bishop ∧
              m.promo ≠ some PieceKind.knight)))
      = some (some true) := by
  cases hp : parseFen (str "4k3/1P6/8/8/8/8/8/4K3 w - - 0 1") with
  | none =>
    have hs : (parseFen (str "4k3/1P6/8/8/8/8/8/4K3 w - - 0 1")).isSome = true := by
      decide
    rw [hp] at hs
    simp at hs
  | some P =>
    cases hj : jsMove P 49 57 PieceKind.queen with
    | none =>
      have hs : (parseFen (str "4k3/1P6/8/8/8/8/8/4K3 w - - 0 1")).map
          (fun Q => (jsMove Q 49 57 PieceKind.queen).isSome) = some true := by decide
      rw [hp] at hs
      simp only [Option.map_some', Option.some_inj] at hs
      rw [hj] at hs
      simp at hs
    | some m =>
      simp only [Option.map_some', hj, Option.some_inj]
      rw [decide_eq_true (C10_promotion_queen P 49 57 m hj).1]
